import Mathlib

/-!
# Verification of the Cognitive-Field-Explorer packet store

Shallow embedding of `src/services/fieldService.ts` (the `InformationField`
packet store, its query engine, the derived metrics and the two operators)
and of the composite health computations in `src/App.tsx`.

Modelling conventions:
* JS numbers that the code only adds, subtracts, multiplies, divides and
  compares are modelled as `ℚ` (timestamps `t`, embedding coordinates,
  confidences); values produced through `Math.sqrt` / `Math.exp` /
  `Math.log` are modelled as `ℝ`.
* A JS `Map` keyed by packet id is modelled as an insertion-ordered list
  (`packets : List InfoPacket`); a JS `Set` is an insertion-ordered
  duplicate-free list.
* `uuidv4()` and `Date.now()` are environment inputs; functions that call
  them (`createPacket`, `HierarchyOperator.run`) take them as explicit
  arguments.
-/

namespace CognitiveField

/-- Packet payloads are opaque to the store.  Only the shapes actually
constructed by the modelled code are needed: `null` (the `createPacket`
default) and the macro-summary record built by `HierarchyOperator.run`. -/
inductive Payload where
  | null : Payload
  | macroSummary (count : Nat) : Payload
  deriving DecidableEq, Repr

/-- `InfoPacket` from `src/types.ts`. -/
structure InfoPacket where
  id : String
  t : ℚ
  kind : String
  payload : Payload
  embedding : Option (ℚ × ℚ)
  tags : List String
  confidence : ℚ
  parents : List String
  operator : Option String
  meta : List (String × Nat)
  deriving DecidableEq, Repr

/-- `FieldQuery` from `src/types.ts`. -/
structure FieldQuery where
  tags_any : Option (List String) := none
  tags_all : Option (List String) := none
  kinds : Option (List String) := none
  since_t : Option ℚ := none
  until_t : Option ℚ := none
  limit : Option Nat := none
  deriving DecidableEq, Repr

/-- `OpContext` from `src/types.ts` (`budget` is unused by the modelled code). -/
structure OpContext where
  step : Nat
  deriving DecidableEq, Repr

/-- `OpResult` from `src/types.ts`. -/
structure OpResult where
  produced : List InfoPacket
  consumed : List String
  score_delta : ℚ
  notes : List String
  deriving DecidableEq, Repr

/-- The mutable state of an `InformationField` instance:
`packets` (the id→packet `Map`, in insertion order, each entry keyed by the
packet's own id), `timeline` (the `{t, id}` array) and `tagIndex`
(the tag→`Set<PacketID>` map, as an insertion-ordered association list). -/
structure InformationField where
  packets : List InfoPacket
  timeline : List (ℚ × String)
  tagIndex : List (String × List String)
  deriving DecidableEq, Repr

/-- A fresh `new InformationField()`. -/
def InformationField.empty : InformationField :=
  { packets := [], timeline := [], tagIndex := [] }

/-- `Map.get` on the insertion-ordered packet list (keys are the packet ids,
unique on every store the code can build). -/
def findPkt (ps : List InfoPacket) (id : String) : Option InfoPacket :=
  ps.find? (fun p => p.id = id)

/-- `this.packets.get(id)` (also `InformationField.get`). -/
def InformationField.getPkt (f : InformationField) (id : String) : Option InfoPacket :=
  findPkt f.packets id

/-- `this.tagIndex.get(tag)`: `none` models JS `undefined`. -/
def tagLookup (idx : List (String × List String)) (tag : String) : Option (List String) :=
  (idx.find? (fun e => e.1 = tag)).map (fun e => e.2)

/-- `Set.add` on an insertion-ordered set. -/
def setAdd (s : List String) (id : String) : List String :=
  if s.contains id then s else s ++ [id]

/-- Add `id` to the `Set` stored under `tag`, creating the entry first when
absent — the body of `pkt.tags.forEach` in `put`.  A JS `Map.set` updates the
unique entry with that key in place, or appends a fresh entry at the end. -/
def addTagId : List (String × List String) → String → String → List (String × List String)
  | [], tag, id => [(tag, setAdd [] id)]
  | e :: rest, tag, id =>
    if e.1 = tag then (e.1, setAdd e.2 id) :: rest else e :: addTagId rest tag id

/-- Index every tag of `pkt` (the `pkt.tags.forEach` loop in `put`). -/
def addPktTags (pkt : InfoPacket) (idx : List (String × List String)) : List (String × List String) :=
  pkt.tags.foldl (fun idx tag => addTagId idx tag pkt.id) idx

/-- Timeline insertion in `put`: `findIndex(item => item.t > pkt.t)` followed
by `push` / `splice` — insert before the first strictly-greater timestamp. -/
def insertTL (e : ℚ × String) : List (ℚ × String) → List (ℚ × String)
  | [] => [e]
  | x :: xs => if x.1 > e.1 then e :: x :: xs else x :: insertTL e xs

/-- `InformationField.put`.  Returns the updated store together with the
returned `PacketID` (the source returns `pkt.id` on both branches). -/
def InformationField.put (f : InformationField) (pkt : InfoPacket) : InformationField × String :=
  if (f.getPkt pkt.id).isSome then (f, pkt.id)
  else
    ({ packets := f.packets ++ [pkt]
       timeline := insertTL (pkt.t, pkt.id) f.timeline
       tagIndex := addPktTags pkt f.tagIndex }, pkt.id)

/-- Store component of `put`. -/
def InformationField.putF (f : InformationField) (pkt : InfoPacket) : InformationField :=
  (f.put pkt).1

/-- `InformationField.getSize` (`this.packets.size`). -/
def InformationField.getSize (f : InformationField) : Nat :=
  f.packets.length

/-- A placeholder for the value of a JS non-null assertion that can never
fire on a consistent store (`this.packets.get(item.id)!`). -/
def defaultPacket : InfoPacket :=
  { id := "", t := 0, kind := "", payload := .null, embedding := none
    tags := [], confidence := 0, parents := [], operator := none, meta := [] }

/-- `InformationField.getLatest(n)`: `this.timeline.slice(-n).reverse()`
resolved through the packet map.  JS `slice(-0)` is `slice(0)`, i.e. the
whole array, so `n = 0` is a special case. -/
def InformationField.getLatest (f : InformationField) (n : Nat) : List InfoPacket :=
  ((if n = 0 then f.timeline else f.timeline.drop (f.timeline.length - n)).reverse).map
    (fun e => (f.getPkt e.2).getD defaultPacket)

/-- Union of the id sets of several tags, in JS `Set` insertion order
(the `tags_any` stage of `query`). -/
def unionTags (f : InformationField) (tags : List String) : List String :=
  tags.foldl
    (fun acc tag =>
      match tagLookup f.tagIndex tag with
      | none => acc
      | some tagIds => tagIds.foldl setAdd acc)
    []

/-- The `tags_all` stage of `query`: successive intersections. -/
def interTags (f : InformationField) (tags : List String) (ids : Option (List String)) :
    Option (List String) :=
  tags.foldl
    (fun ids tag =>
      let tagIds := (tagLookup f.tagIndex tag).getD []
      match ids with
      | none => some tagIds
      | some cur => some (cur.filter (fun x => tagIds.contains x)))
    ids

/-- Duplicate-free image of a list in first-occurrence order
(`new Set(array)`). -/
def dedupF (l : List String) : List String :=
  l.foldl setAdd []

/-- Stable insertion (descending `t`) for the final sort of `query`
(`results.sort((a, b) => b.t - a.t)`, a stable sort). -/
def ordInsDesc (x : InfoPacket) : List InfoPacket → List InfoPacket
  | [] => [x]
  | y :: ys => if x.t ≥ y.t then x :: y :: ys else y :: ordInsDesc x ys

/-- Stable sort, descending by `t`. -/
def sortDesc (l : List InfoPacket) : List InfoPacket :=
  l.foldr ordInsDesc []

/-- Stage (a) of `query`: the candidate set after the `tags_any` block
(`null` when no `tags_any` constraint is given). -/
def InformationField.ids0 (f : InformationField) (q : FieldQuery) : Option (List String) :=
  if (q.tags_any.getD []).isEmpty then none
  else some (unionTags f (q.tags_any.getD []))

/-- Stage (b) of `query`: the candidate set after the `tags_all`
intersections. -/
def InformationField.ids1 (f : InformationField) (q : FieldQuery) : Option (List String) :=
  interTags f (q.tags_all.getD []) (f.ids0 q)

/-- The `filteredTimeline` of `query`'s time stage. -/
def InformationField.timeFilteredTL (f : InformationField) (q : FieldQuery) :
    List (ℚ × String) :=
  f.timeline.filter (fun i =>
    (match q.since_t with | none => true | some s => decide (i.1 ≥ s)) &&
    (match q.until_t with | none => true | some u => decide (i.1 ≤ u)))

/-- The `timeIds` set of `query`'s time stage. -/
def InformationField.timeIds (f : InformationField) (q : FieldQuery) : List String :=
  dedupF ((f.timeFilteredTL q).map (fun i => i.2))

/-- Stage (c) of `query`: the final candidate id list (`Array.from(ids)`). -/
def InformationField.queryCandidates (f : InformationField) (q : FieldQuery) : List String :=
  if q.since_t.isSome || q.until_t.isSome || (f.ids1 q).isNone then
    match f.ids1 q with
    | none => f.timeIds q
    | some cur => cur.filter (fun x => (f.timeIds q).contains x)
  else (f.ids1 q).getD []

/-- `InformationField.query`, stages (d)–(f): resolve the candidates, filter
by `kinds`, sort descending by `t` (stable) and truncate to `limit`. -/
def InformationField.query (f : InformationField) (q : FieldQuery) : List InfoPacket :=
  let results0 := (f.queryCandidates q).filterMap (fun id => f.getPkt id)
  let kinds := q.kinds.getD []
  let results1 :=
    if kinds.isEmpty then results0
    else results0.filter (fun p => kinds.contains p.kind)
  let results2 := sortDesc results1
  match q.limit with
  | none => results2
  | some m => results2.take m

/-! ## Metrics (`calculateInnovationError`, `calculateDiversity`) -/

/-- Euclidean distance between two 2-D embeddings (`Math.sqrt(dx*dx + dy*dy)`). -/
noncomputable def euclid (a b : ℚ × ℚ) : ℝ :=
  Real.sqrt (((a.1 - b.1) * (a.1 - b.1) + (a.2 - b.2) * (a.2 - b.2) : ℚ) : ℝ)

/-- `InformationField.calculateInnovationError`. -/
noncomputable def InformationField.calculateInnovationError
    (f : InformationField) (latestObs : InfoPacket) : ℝ :=
  match (f.query { kinds := some ["summary"], limit := some 1 }).head? with
  | none => 0
  | some latestSummary =>
    match latestSummary.embedding, latestObs.embedding with
    | some se, some oe => euclid oe se
    | _, _ => 0

open Classical in
/-- The nearest-centroid scan inside `calculateDiversity`: `nearestId` starts
at `summaries[0].id` and `minDist` at `Infinity` (modelled as `none`), then
every summary with a strictly smaller distance replaces the current best. -/
noncomputable def nearGo (e : ℚ × ℚ) : List InfoPacket → String → Option ℝ → String
  | [], bestId, _ => bestId
  | s :: rest, bestId, bestD =>
    let d := euclid e (s.embedding.getD (0, 0))
    match bestD with
    | none => nearGo e rest s.id (some d)
    | some m => if d < m then nearGo e rest s.id (some d) else nearGo e rest bestId (some m)

/-- Id of the centroid an observation embedding is assigned to. -/
noncomputable def nearestCentroid (summaries : List InfoPacket) (e : ℚ × ℚ) : String :=
  nearGo e summaries (((summaries.head?).map (fun s => s.id)).getD "") none

/-- `counts.set(nearestId, (counts.get(nearestId) || 0) + 1)` on an
insertion-ordered association map. -/
def bumpCount (m : List (String × Nat)) (k : String) : List (String × Nat) :=
  if m.any (fun e => e.1 = k) then m.map (fun e => if e.1 = k then (e.1, e.2 + 1) else e)
  else m ++ [(k, 1)]

/-- The `observations` list of `calculateDiversity`: the up-to-`window` most
recent `observation` packets, restricted to those carrying an embedding. -/
def InformationField.diversityObs (f : InformationField) (window : Nat) : List InfoPacket :=
  (f.query { kinds := some ["observation"], limit := some window }).filter
    (fun p => p.embedding.isSome)

/-- The `summaries` list of `calculateDiversity` (the reference centroids):
the up-to-10 most recent `summary` packets, restricted to those carrying an
embedding. -/
def InformationField.diversityCents (f : InformationField) : List InfoPacket :=
  (f.query { kinds := some ["summary"], limit := some 10 }).filter
    (fun p => p.embedding.isSome)

/-- `InformationField.calculateDiversity`. -/
noncomputable def InformationField.calculateDiversity
    (f : InformationField) (window : Nat) : ℝ :=
  let observations := f.diversityObs window
  let summaries := f.diversityCents
  if observations.length = 0 ∨ summaries.length = 0 then 1
  else
    let counts := observations.foldl
      (fun cnts obs => bumpCount cnts (nearestCentroid summaries (obs.embedding.getD (0, 0)))) []
    let total : ℝ := observations.length
    let entropy := counts.foldl
      (fun acc e => acc - ((e.2 : ℝ) / total) * Real.log ((e.2 : ℝ) / total)) 0
    Real.exp entropy

/-- The assignment list of `calculateDiversity`: each qualifying observation
mapped to the id of its nearest centroid. -/
noncomputable def InformationField.assignList (f : InformationField) (window : Nat) :
    List String :=
  (f.diversityObs window).map
    (fun o => nearestCentroid f.diversityCents (o.embedding.getD (0, 0)))

/-- The count map built by `calculateDiversity`, as a function of the
assignment list alone. -/
def countsOf (A : List String) : List (String × Nat) :=
  A.foldl bumpCount []

/-- `-(p · ln p)`, one entropy summand. -/
noncomputable def negPlogP (x : ℝ) : ℝ := -(x * Real.log x)

/-- Shannon entropy of the assignment-count distribution of `A`:
`-Σ p·ln p` over the non-empty buckets, with `p = count/total`. -/
noncomputable def assignEntropy (A : List String) : ℝ :=
  ((A.dedup).map (fun k => negPlogP ((A.count k : ℝ) / (A.length : ℝ)))).sum

/-! ## `createPacket` and the operators -/

/-- `Partial<InfoPacket>`: the overrides object passed to `createPacket`. -/
structure PacketOverrides where
  id : Option String := none
  t : Option ℚ := none
  kind : Option String := none
  payload : Option Payload := none
  embedding : Option (ℚ × ℚ) := none
  tags : Option (List String) := none
  confidence : Option ℚ := none
  parents : Option (List String) := none
  operator : Option String := none
  meta : Option (List (String × Nat)) := none
  deriving DecidableEq, Repr

/-- `createPacket(overrides)`.  `genId` stands for the fresh dash-stripped
`uuidv4()` and `now` for `Date.now() / 1000`. -/
def createPacket (genId : String) (now : ℚ) (overrides : PacketOverrides) : InfoPacket :=
  { id := overrides.id.getD genId
    t := overrides.t.getD now
    kind := overrides.kind.getD "fact"
    payload := overrides.payload.getD .null
    embedding := overrides.embedding
    tags := overrides.tags.getD []
    confidence := overrides.confidence.getD 1
    parents := overrides.parents.getD []
    operator := overrides.operator
    meta := overrides.meta.getD [] }

namespace CentroidOperator

def window : Nat := 32
def minPoints : Nat := 4

/-- `CentroidOperator.applicable`: at least `minPoints` of the most recent
`window` packets tagged `observation`/`belief`/`trace` carry an embedding
and are not quarantined. -/
def applicable (field : InformationField) : Bool :=
  let pkts := field.query
    { tags_any := some ["observation", "belief", "trace"], limit := some window }
  let groundedPkts := pkts.filter
    (fun p => p.embedding.isSome && !(p.tags.contains "quarantine"))
  decide (groundedPkts.length ≥ minPoints)

end CentroidOperator

namespace HierarchyOperator

def window : Nat := 96
def targetCount : Nat := 10

/-- `HierarchyOperator.applicable`. -/
def applicable (field : InformationField) (isIgnition : Bool) : Bool :=
  if !isIgnition then false
  else
    let summaries := field.query { kinds := some ["summary"], limit := some window }
    decide (summaries.length ≥ 10)

/-- Arithmetic-mean embedding of a chunk. -/
def chunkCentroid (chunk : List InfoPacket) : ℚ × ℚ :=
  ((chunk.map (fun p => (p.embedding.getD (0, 0)).1)).sum / chunk.length,
   (chunk.map (fun p => (p.embedding.getD (0, 0)).2)).sum / chunk.length)

/-- The chunks visited by `for (let i = 0; i < summaries.length; i += stepSize)`:
`summaries.slice(i, i + stepSize)` for each loop index.  (Each visited chunk
is non-empty because `i < summaries.length`, so the `continue` guard in the
source never fires.) -/
def chunksOf (stepSize : Nat) (summaries : List InfoPacket) : List (List InfoPacket) :=
  (List.range ((summaries.length + stepSize - 1) / stepSize)).map
    (fun j => (summaries.drop (j * stepSize)).take stepSize)

/-- The eligible summaries of `HierarchyOperator.run`: the most recent
`window = 96` packets of kind `summary` that carry an embedding. -/
def eligSummaries (field : InformationField) : List InfoPacket :=
  (field.query { kinds := some ["summary"], limit := some window }).filter
    (fun p => p.embedding.isSome)

/-- `HierarchyOperator.run`.  `genId j` supplies the uuid of the `j`-th
produced macro-summary packet and `now` the shared `Date.now() / 1000`. -/
def run (field : InformationField) (ctx : OpContext) (genId : Nat → String) (now : ℚ) :
    OpResult :=
  let summaries := eligSummaries field
  let stepSize := max 1 (summaries.length / targetCount)
  let chunks := chunksOf stepSize summaries
  let produced := (chunks.enum).map (fun e =>
    createPacket (genId e.1) now
      { kind := some "summary"
        payload := some (.macroSummary e.2.length)
        embedding := some (chunkCentroid e.2)
        tags := some ["macro", "map", "do_not_prune_micro", "summary"]
        confidence := some (7 / 10)
        parents := some (e.2.map (fun p => p.id))
        operator := some "hierarchy.compress"
        meta := some [("step", ctx.step)] })
  { produced := produced
    consumed := summaries.map (fun p => p.id)
    score_delta := 1
    notes := ["Hierarchical re-clustering: Generated " ++ toString produced.length ++
      " macro-centroids from " ++ toString summaries.length ++ " summaries."] }

end HierarchyOperator

/-! ## The composite health computations in `src/App.tsx` -/

/-- `sigmoid(x) = 1 / (1 + exp(-x))` as defined inline in both variants. -/
noncomputable def sigmoid (x : ℝ) : ℝ := 1 / (1 + Real.exp (-x))

/-- The health index of the first `App` variant (`src/App.tsx` around lines
142–150): `alpha = 2`, `beta = 1`, `gamma = 5`, `n0 = 1.2`, and the recursion
factor is `(1 - r_t * 0.5)` rather than an exponential. -/
noncomputable def healthVariant1 (eps_t n_eff s_t_raw r_t : ℝ) : ℝ :=
  Real.exp (-(2 : ℝ) * eps_t) * sigmoid ((1 : ℝ) * (n_eff - 1.2)) *
    Real.exp (-(5 : ℝ) * s_t_raw) * (1 - r_t * 0.5)

/-- The health index of the second `App` variant (`src/App.tsx` around lines
564–569): `alpha = 2`, `beta = 2`, `gamma = 5`, `delta_r = 1.5`, `n0 = 1.5`. -/
noncomputable def healthVariant2 (eps_t n_eff s_t_raw r_t : ℝ) : ℝ :=
  Real.exp (-(2 : ℝ) * eps_t) * sigmoid ((2 : ℝ) * (n_eff - 1.5)) *
    Real.exp (-(5 : ℝ) * s_t_raw) * Real.exp (-(1.5 : ℝ) * r_t)

/-- Modelled from the spec: `compositeHealth(eps, n_eff, s_t, r_t; alpha,
beta, gamma, delta, n0)` as §4.3 of the spec writes it. -/
noncomputable def compositeHealth (eps n_eff s_t r_t alpha beta gamma delta n0 : ℝ) : ℝ :=
  Real.exp (-alpha * eps) * sigmoid (beta * (n_eff - n0)) *
    Real.exp (-gamma * s_t) * Real.exp (-delta * r_t)

/-! ## Specification-side reconstructions, reachability and the invariant -/

/-- The ids in packet-map order. -/
def pktIds (ps : List InfoPacket) : List String := ps.map (fun p => p.id)

/-- Reconstruction of the timeline from the packet map alone: stable
ascending-by-`t` insertion of each `(t, id)` pair, in insertion order of the
packet map — i.e. "the store's ids sorted ascending by `t` with ties broken
by insertion order" (§3 invariant 5 of the spec). -/
def specTimeline (ps : List InfoPacket) : List (ℚ × String) :=
  ps.foldl (fun acc p => insertTL (p.t, p.id) acc) []

/-- Reconstruction of the tag index from the packet map alone. -/
def specTagIndex (ps : List InfoPacket) : List (String × List String) :=
  ps.foldl (fun idx p => addPktTags p idx) []

/-- Membership of `id` in the id set the index stores for `tag`. -/
def tagMem (idx : List (String × List String)) (tag id : String) : Prop :=
  id ∈ (tagLookup idx tag).getD []

/-- Stable ascending insertion of a resolved packet by `t` (the packet-level
mirror of `insertTL`). -/
def insertPkt (p : InfoPacket) : List InfoPacket → List InfoPacket
  | [] => [p]
  | q :: qs => if q.t > p.t then p :: q :: qs else q :: insertPkt p qs

/-- The packets sorted ascending by `t`, ties broken by insertion order. -/
def ascSortPkts (ps : List InfoPacket) : List InfoPacket :=
  ps.foldl (fun acc p => insertPkt p acc) []

/-- The timeline resolved through the packet map. -/
def InformationField.resolveTL (f : InformationField) : List InfoPacket :=
  f.timeline.filterMap (fun e => f.getPkt e.2)

/-- Stores reachable from `new InformationField()` by a sequence of `put`s. -/
inductive Reachable : InformationField → Prop where
  | empty : Reachable InformationField.empty
  | put (f : InformationField) (p : InfoPacket) : Reachable f → Reachable (f.putF p)

/-- The structural store invariant: unique ids, and both maintained
structures equal their reconstruction from the packet map alone. -/
structure Inv (f : InformationField) : Prop where
  nodup : (pktIds f.packets).Nodup
  tl : f.timeline = specTimeline f.packets
  tags : f.tagIndex = specTagIndex f.packets

/-- The `tags_any` constraint of a filter, as a predicate on packets
(an absent or empty list imposes nothing, mirroring the `length > 0`
guard in `query`). -/
def satisfiesAnyB (p : InfoPacket) (q : FieldQuery) : Bool :=
  match q.tags_any with
  | some (t :: ts) => (t :: ts).any (fun tag => p.tags.contains tag)
  | _ => true

/-- The `tags_all` constraint of a filter, as a predicate on packets. -/
def satisfiesAllB (p : InfoPacket) (q : FieldQuery) : Bool :=
  (q.tags_all.getD []).all (fun tag => p.tags.contains tag)

/-- The `kinds` constraint of a filter, as a predicate on packets. -/
def satisfiesKindB (p : InfoPacket) (q : FieldQuery) : Bool :=
  match q.kinds with
  | some (k :: ks) => (k :: ks).contains p.kind
  | _ => true

/-- The inclusive time-window constraint of a filter, as a predicate on
packets. -/
def satisfiesTimeB (p : InfoPacket) (q : FieldQuery) : Bool :=
  (match q.since_t with | none => true | some s => decide (s ≤ p.t)) &&
  (match q.until_t with | none => true | some u => decide (p.t ≤ u))

/-- `satisfiesB p q`: packet `p` matches every constraint that the filter `q`
actually imposes. -/
def satisfiesB (p : InfoPacket) (q : FieldQuery) : Bool :=
  satisfiesAnyB p q && satisfiesAllB p q && satisfiesKindB p q && satisfiesTimeB p q

/-- First element of a packet list attaining the maximal `t` (recursing on
the head; the earlier element wins ties). -/
def firstMaxCons : List InfoPacket → Option InfoPacket
  | [] => none
  | x :: xs =>
    match firstMaxCons xs with
    | none => some x
    | some m => some (if x.t ≥ m.t then x else m)

/-- First element attaining the maximal `t`, scanning in list order and
replacing the current best only on strict improvement. -/
def specMax (ps : List InfoPacket) : Option InfoPacket :=
  ps.foldl
    (fun acc p =>
      match acc with
      | none => some p
      | some m => if p.t > m.t then some p else some m)
    none

/-- The reference summary that `calculateInnovationError` actually measures
against: among the stored packets of kind `summary`, the one with the
greatest `t`, earliest-inserted among equal-`t` ties. -/
def specRefSummary (f : InformationField) : Option InfoPacket :=
  specMax (f.packets.filter (fun p => p.kind = "summary"))

/-! ## Concrete fixtures used by witnesses and counterexamples -/

/-- The kinds enumerated in §3 of the spec
(`{observation, belief, goal, model, trace, summary, self_model, anchor}`). -/
def specEnumeratedKinds : List String :=
  ["observation", "belief", "goal", "model", "trace", "summary", "self_model", "anchor"]

def pktA : InfoPacket :=
  { id := "a", t := 0, kind := "fact", payload := .null, embedding := none
    tags := ["alpha"], confidence := 1, parents := [], operator := none, meta := [] }

/-- A different packet carrying the same id as `pktA`. -/
def pktA2 : InfoPacket :=
  { id := "a", t := 1, kind := "fact", payload := .null, embedding := none
    tags := ["beta"], confidence := 1, parents := [], operator := none, meta := [] }

def storeA : InformationField := InformationField.empty.putF pktA

/-- Folding `put` over a list of packets, starting from the empty store. -/
def buildStore (l : List InfoPacket) : InformationField :=
  l.foldl (fun f p => f.putF p) InformationField.empty

/-- `i`-th concrete observation packet: kind and tag `observation`,
embedding `(i, 0)`, timestamp `i`. -/
def mkObs (i : Nat) : InfoPacket :=
  { id := "obs" ++ toString i, t := (i : ℚ), kind := "observation", payload := .null
    embedding := some ((i : ℚ), 0), tags := ["observation"], confidence := 1
    parents := [], operator := none, meta := [] }

/-- `i`-th concrete summary packet: kind and tag `summary`,
embedding `(i, 0)`, timestamp `i`. -/
def mkSum (i : Nat) : InfoPacket :=
  { id := "sum" ++ toString i, t := (i : ℚ), kind := "summary", payload := .null
    embedding := some ((i : ℚ), 0), tags := ["summary"], confidence := 1
    parents := [], operator := none, meta := [] }

/-- Three grounded embedded observation packets. -/
def store3 : InformationField := buildStore ((List.range 3).map mkObs)

/-- Four grounded embedded observation packets. -/
def store4 : InformationField := buildStore ((List.range 4).map mkObs)

/-- Eleven embedded summary packets. -/
def store11 : InformationField := buildStore ((List.range 11).map mkSum)

/-- Summary with embedding `(0, 0)`, timestamp `1`, inserted first. -/
def sumT1 : InfoPacket :=
  { id := "s1", t := 1, kind := "summary", payload := .null, embedding := some (0, 0)
    tags := ["summary"], confidence := 1, parents := [], operator := none, meta := [] }

/-- Summary with embedding `(1, 0)`, timestamp `0`, inserted second —
the most recently *inserted* summary of `storeC6`. -/
def sumT0 : InfoPacket :=
  { id := "s2", t := 0, kind := "summary", payload := .null, embedding := some (1, 0)
    tags := ["summary"], confidence := 1, parents := [], operator := none, meta := [] }

/-- Store holding `sumT1` then `sumT0`. -/
def storeC6 : InformationField := buildStore [sumT1, sumT0]

/-- Store holding a single summary with embedding `(0, 0)`. -/
def storeIE : InformationField := buildStore [sumT1]

/-- Observation packet with embedding `(3, 4)`. -/
def obs34 : InfoPacket :=
  { id := "o1", t := 2, kind := "observation", payload := .null, embedding := some (3, 4)
    tags := ["observation"], confidence := 1, parents := [], operator := none, meta := [] }

/-- Store with one embedded summary and one embedded observation. -/
def storeDiv : InformationField := buildStore [mkSum 0, mkObs 1]

open List

/-! ## Basic lemmas about the packet map -/

theorem findPkt_eq_none {ps : List InfoPacket} {id : String} :
    findPkt ps id = none ↔ ∀ p ∈ ps, p.id ≠ id := by
  simp [findPkt, List.find?_eq_none]

theorem findPkt_mem {ps : List InfoPacket} {id : String} {p : InfoPacket}
    (h : findPkt ps id = some p) : p ∈ ps ∧ p.id = id := by
  refine ⟨List.mem_of_find?_eq_some h, ?_⟩
  have := List.find?_some h
  simpa using this

theorem findPkt_append_left {ps qs : List InfoPacket} {id : String} {p : InfoPacket}
    (h : findPkt ps id = some p) : findPkt (ps ++ qs) id = some p := by
  induction ps with
  | nil => simp [findPkt] at h
  | cons a ps ih =>
    by_cases ha : a.id = id
    · rw [findPkt, List.cons_append, List.find?_cons_of_pos _ (by simpa using ha)]
      rw [findPkt, List.find?_cons_of_pos _ (by simpa using ha)] at h
      exact h
    · rw [findPkt, List.cons_append, List.find?_cons_of_neg _ (by simpa using ha)]
      rw [findPkt, List.find?_cons_of_neg _ (by simpa using ha)] at h
      exact ih h

theorem findPkt_append_right {ps qs : List InfoPacket} {id : String}
    (h : findPkt ps id = none) : findPkt (ps ++ qs) id = findPkt qs id := by
  induction ps with
  | nil => simp
  | cons a ps ih =>
    by_cases ha : a.id = id
    · rw [findPkt, List.find?_cons_of_pos _ (by simpa using ha)] at h
      exact absurd h (by simp)
    · rw [findPkt, List.find?_cons_of_neg _ (by simpa using ha)] at h
      rw [findPkt, List.cons_append, List.find?_cons_of_neg _ (by simpa using ha)]
      exact ih h

theorem findPkt_of_mem_nodup {ps : List InfoPacket} {p : InfoPacket}
    (hmem : p ∈ ps) (hnd : (pktIds ps).Nodup) : findPkt ps p.id = some p := by
  induction ps with
  | nil => simp at hmem
  | cons a ps ih =>
    simp only [pktIds, List.map_cons, List.nodup_cons] at hnd
    rcases List.mem_cons.1 hmem with rfl | hmem
    · rw [findPkt, List.find?_cons_of_pos _ (by simp)]
    · have hne : ¬ a.id = p.id := by
        intro he
        exact hnd.1 (by rw [he]; exact List.mem_map_of_mem (fun q => q.id) hmem)
      rw [findPkt, List.find?_cons_of_neg _ (by simpa using hne)]
      exact ih hmem hnd.2

/-! ## Lemmas about timeline insertion and its reconstruction -/

theorem insertTL_perm (e : ℚ × String) (l : List (ℚ × String)) :
    insertTL e l ~ e :: l := by
  induction l with
  | nil => simp [insertTL]
  | cons x xs ih =>
    by_cases h : x.1 > e.1
    · simp [insertTL, h]
    · simp only [insertTL, h, if_false]
      exact (ih.cons x).trans (List.Perm.swap e x xs)

theorem insertTL_sorted {l : List (ℚ × String)} (e : ℚ × String)
    (h : l.Pairwise (fun a b => a.1 ≤ b.1)) :
    (insertTL e l).Pairwise (fun a b => a.1 ≤ b.1) := by
  induction l with
  | nil => simp [insertTL]
  | cons x xs ih =>
    rcases List.pairwise_cons.1 h with ⟨hx, hxs⟩
    by_cases hc : x.1 > e.1
    · simp only [insertTL, hc, if_true]
      refine List.pairwise_cons.2 ⟨?_, h⟩
      intro b hb
      rcases List.mem_cons.1 hb with rfl | hb
      · exact le_of_lt hc
      · exact le_trans (le_of_lt hc) (hx b hb)
    · simp only [insertTL, hc, if_false]
      refine List.pairwise_cons.2 ⟨?_, ih hxs⟩
      intro b hb
      have := (insertTL_perm e xs).mem_iff.1 hb
      rcases List.mem_cons.1 this with rfl | hb'
      · exact le_of_not_lt hc
      · exact hx b hb'

theorem specTimeline_append (ps : List InfoPacket) (p : InfoPacket) :
    specTimeline (ps ++ [p]) = insertTL (p.t, p.id) (specTimeline ps) := by
  simp [specTimeline, List.foldl_append]

theorem specTimeline_perm (ps : List InfoPacket) :
    specTimeline ps ~ ps.map (fun p => (p.t, p.id)) := by
  induction ps using List.reverseRecOn with
  | nil => simp [specTimeline]
  | append_singleton ps p ih =>
    rw [specTimeline_append]
    calc insertTL (p.t, p.id) (specTimeline ps)
        ~ (p.t, p.id) :: specTimeline ps := insertTL_perm _ _
      _ ~ (p.t, p.id) :: ps.map (fun q => (q.t, q.id)) := ih.cons _
      _ ~ ps.map (fun q => (q.t, q.id)) ++ [(p.t, p.id)] := by
          simpa using (@List.perm_middle _ (p.t, p.id)
            (ps.map (fun q => (q.t, q.id))) []).symm
      _ = (ps ++ [p]).map (fun q => (q.t, q.id)) := by simp

theorem specTimeline_sorted (ps : List InfoPacket) :
    (specTimeline ps).Pairwise (fun a b => a.1 ≤ b.1) := by
  induction ps using List.reverseRecOn with
  | nil => simp [specTimeline]
  | append_singleton ps p ih =>
    rw [specTimeline_append]
    exact insertTL_sorted _ ih

/-! ## Invariant preservation -/

theorem inv_empty : Inv InformationField.empty := by
  constructor <;> simp [InformationField.empty, pktIds, specTimeline, specTagIndex]

theorem putF_of_present {f : InformationField} {p : InfoPacket}
    (h : (f.getPkt p.id).isSome) : f.putF p = f := by
  simp [InformationField.putF, InformationField.put, h]

theorem putF_of_absent {f : InformationField} {p : InfoPacket}
    (h : f.getPkt p.id = none) :
    f.putF p = { packets := f.packets ++ [p]
                 timeline := insertTL (p.t, p.id) f.timeline
                 tagIndex := addPktTags p f.tagIndex } := by
  simp [InformationField.putF, InformationField.put, h]

theorem specTagIndex_append (ps : List InfoPacket) (p : InfoPacket) :
    specTagIndex (ps ++ [p]) = addPktTags p (specTagIndex ps) := by
  simp [specTagIndex, List.foldl_append]

theorem inv_put {f : InformationField} (p : InfoPacket) (h : Inv f) : Inv (f.putF p) := by
  cases hg : f.getPkt p.id with
  | some q => rw [putF_of_present (by simp [hg])]; exact h
  | none =>
    rw [putF_of_absent hg]
    have hfresh : p.id ∉ pktIds f.packets := by
      intro hmem
      rcases List.mem_map.1 hmem with ⟨q, hq, hqid⟩
      exact (findPkt_eq_none.1 hg q hq) hqid
    refine ⟨?_, ?_, ?_⟩
    · simp only [pktIds, List.map_append, List.map_cons, List.map_nil]
      refine List.Nodup.append h.nodup (by simp) ?_
      simp only [List.disjoint_singleton]
      simpa [pktIds] using hfresh
    · simp [h.tl, specTimeline_append]
    · simp [h.tags, specTagIndex_append]

theorem reachable_inv {f : InformationField} (h : Reachable f) : Inv f := by
  induction h with
  | empty => exact inv_empty
  | put f p _ ih => exact inv_put p ih

/-! ## Consequences of the invariant -/

theorem timeline_perm {f : InformationField} (h : Inv f) :
    f.timeline ~ f.packets.map (fun p => (p.t, p.id)) := by
  rw [h.tl]; exact specTimeline_perm _

theorem timeline_sorted {f : InformationField} (h : Inv f) :
    f.timeline.Pairwise (fun a b => a.1 ≤ b.1) := by
  rw [h.tl]; exact specTimeline_sorted _

theorem timeline_length {f : InformationField} (h : Inv f) :
    f.timeline.length = f.packets.length := by
  simpa using (timeline_perm h).length_eq

theorem timeline_resolve {f : InformationField} (h : Inv f) :
    ∀ e ∈ f.timeline, ∃ p ∈ f.packets, f.getPkt e.2 = some p ∧ p.t = e.1 := by
  intro e he
  have : e ∈ f.packets.map (fun p => (p.t, p.id)) := (timeline_perm h).mem_iff.1 he
  rcases List.mem_map.1 this with ⟨p, hp, rfl⟩
  exact ⟨p, hp, findPkt_of_mem_nodup hp h.nodup, rfl⟩

theorem timeline_ids_nodup {f : InformationField} (h : Inv f) :
    (f.timeline.map (fun e => e.2)).Nodup := by
  have hperm : f.timeline.map (fun e => e.2) ~ pktIds f.packets := by
    have := (timeline_perm h).map (fun e => e.2)
    simpa [pktIds, Function.comp] using this
  exact hperm.nodup_iff.2 h.nodup

/-! ## The resolved timeline is the stable ascending sort of the packets -/

theorem filterMap_congr_mem {α β : Type} {l : List α} {g g' : α → Option β}
    (h : ∀ x ∈ l, g x = g' x) : l.filterMap g = l.filterMap g' := by
  induction l with
  | nil => simp
  | cons x xs ih =>
    rw [List.filterMap_cons, List.filterMap_cons, h x (by simp),
      ih (fun y hy => h y (by simp [hy]))]

theorem filterMap_insertTL {g : ℚ × String → Option InfoPacket} {e : ℚ × String}
    {tl : List (ℚ × String)} {pe : InfoPacket} (hge : g e = some pe) (hpe : pe.t = e.1)
    (htl : ∀ x ∈ tl, ∃ px, g x = some px ∧ px.t = x.1) :
    (insertTL e tl).filterMap g = insertPkt pe (tl.filterMap g) := by
  induction tl with
  | nil => simp [insertTL, insertPkt, hge]
  | cons x xs ih =>
    obtain ⟨px, hgx, hpx⟩ := htl x (by simp)
    by_cases hc : x.1 > e.1
    · have hgt : px.t > pe.t := by rw [hpx, hpe]; exact hc
      simp [insertTL, hc, List.filterMap_cons, hge, hgx, insertPkt, hgt]
    · have hgt : ¬ px.t > pe.t := by rw [hpx, hpe]; exact hc
      simp only [insertTL, hc, if_false, List.filterMap_cons, hgx,
        ih (fun y hy => htl y (by simp [hy])), insertPkt, hgt]

theorem ascSortPkts_append (ps : List InfoPacket) (p : InfoPacket) :
    ascSortPkts (ps ++ [p]) = insertPkt p (ascSortPkts ps) := by
  simp [ascSortPkts, List.foldl_append]

theorem specTimeline_resolve_eq {ps : List InfoPacket} (hnd : (pktIds ps).Nodup) :
    (specTimeline ps).filterMap (fun e => findPkt ps e.2) = ascSortPkts ps := by
  induction ps using List.reverseRecOn with
  | nil => simp [specTimeline, ascSortPkts]
  | append_singleton ps p ih =>
    have hnodup : (pktIds ps).Nodup := by
      simp only [pktIds, List.map_append, List.nodup_append] at hnd
      exact hnd.1
    have hfresh : ∀ q ∈ ps, q.id ≠ p.id := by
      simp only [pktIds, List.map_append, List.nodup_append] at hnd
      intro q hq he
      exact hnd.2.2 (List.mem_map_of_mem (fun r => r.id) hq) (by simp [he])
    have hmemres : ∀ x ∈ specTimeline ps,
        ∃ px, findPkt (ps ++ [p]) x.2 = some px ∧ px.t = x.1 := by
      intro x hx
      have : x ∈ ps.map (fun q => (q.t, q.id)) := (specTimeline_perm ps).mem_iff.1 hx
      rcases List.mem_map.1 this with ⟨q, hq, rfl⟩
      exact ⟨q, findPkt_append_left (findPkt_of_mem_nodup hq hnodup), rfl⟩
    have hnone : findPkt ps p.id = none :=
      findPkt_eq_none.2 (fun q hq => hfresh q hq)
    have hge : (fun e : ℚ × String => findPkt (ps ++ [p]) e.2) (p.t, p.id) = some p := by
      show findPkt (ps ++ [p]) p.id = some p
      rw [findPkt_append_right hnone]
      simp [findPkt]
    have hcongr : ∀ x ∈ specTimeline ps,
        (fun e : ℚ × String => findPkt (ps ++ [p]) e.2) x
          = (fun e : ℚ × String => findPkt ps e.2) x := by
      intro x hx
      have : x ∈ ps.map (fun q => (q.t, q.id)) := (specTimeline_perm ps).mem_iff.1 hx
      rcases List.mem_map.1 this with ⟨q, hq, rfl⟩
      simp only
      rw [findPkt_append_left (findPkt_of_mem_nodup hq hnodup),
        findPkt_of_mem_nodup hq hnodup]
    rw [specTimeline_append]
    rw [@filterMap_insertTL (fun e : ℚ × String => findPkt (ps ++ [p]) e.2)
      (p.t, p.id) (specTimeline ps) p hge rfl hmemres]
    rw [@filterMap_congr_mem (ℚ × String) InfoPacket (specTimeline ps)
      (fun e => findPkt (ps ++ [p]) e.2) (fun e => findPkt ps e.2) hcongr, ih hnodup,
      ascSortPkts_append]

theorem resolveTL_eq_ascSort {f : InformationField} (h : Inv f) :
    f.resolveTL = ascSortPkts f.packets := by
  rw [InformationField.resolveTL, h.tl]
  exact specTimeline_resolve_eq h.nodup

/-! ## Lemmas about the stable descending sort in `query` -/

theorem ordInsDesc_perm (x : InfoPacket) (l : List InfoPacket) :
    ordInsDesc x l ~ x :: l := by
  induction l with
  | nil => simp [ordInsDesc]
  | cons y ys ih =>
    by_cases h : x.t ≥ y.t
    · simp [ordInsDesc, h]
    · simp only [ordInsDesc, h, if_false]
      exact (ih.cons y).trans (List.Perm.swap x y ys)

theorem sortDesc_perm (l : List InfoPacket) : sortDesc l ~ l := by
  induction l with
  | nil => simp [sortDesc]
  | cons x xs ih =>
    simpa [sortDesc] using ((ordInsDesc_perm x (sortDesc xs)).trans (ih.cons x))

theorem ordInsDesc_sorted {l : List InfoPacket} (x : InfoPacket)
    (h : l.Pairwise (fun a b => b.t ≤ a.t)) :
    (ordInsDesc x l).Pairwise (fun a b => b.t ≤ a.t) := by
  induction l with
  | nil => simp [ordInsDesc]
  | cons y ys ih =>
    rcases List.pairwise_cons.1 h with ⟨hy, hys⟩
    by_cases hc : x.t ≥ y.t
    · simp only [ordInsDesc, hc, if_true]
      refine List.pairwise_cons.2 ⟨?_, h⟩
      intro b hb
      rcases List.mem_cons.1 hb with rfl | hb
      · exact hc
      · exact le_trans (hy b hb) hc
    · simp only [ordInsDesc, hc, if_false]
      refine List.pairwise_cons.2 ⟨?_, ih hys⟩
      intro b hb
      have := (ordInsDesc_perm x ys).mem_iff.1 hb
      rcases List.mem_cons.1 this with rfl | hb'
      · exact le_of_not_le hc
      · exact hy b hb'

theorem sortDesc_sorted (l : List InfoPacket) :
    (sortDesc l).Pairwise (fun a b => b.t ≤ a.t) := by
  induction l with
  | nil => simp [sortDesc]
  | cons x xs ih => simpa [sortDesc] using ordInsDesc_sorted x ih

/-! ## `dedupF` on duplicate-free input -/

theorem foldl_setAdd_of_nodup :
    ∀ {l acc : List String}, l.Nodup → (∀ x ∈ l, x ∉ acc) →
      l.foldl setAdd acc = acc ++ l := by
  intro l
  induction l with
  | nil => simp
  | cons x xs ih =>
    intro acc hnd hdisj
    have hx : x ∉ acc := hdisj x (by simp)
    rcases List.nodup_cons.1 hnd with ⟨hxxs, hxs⟩
    rw [List.foldl_cons]
    rw [setAdd, if_neg (by simpa using hx)]
    rw [ih hxs ?_]
    · simp
    · intro y hy
      simp only [List.mem_append, List.mem_singleton]
      rintro (hya | rfl)
      · exact hdisj y (by simp [hy]) hya
      · exact hxxs hy

theorem dedupF_eq_self {l : List String} (h : l.Nodup) : dedupF l = l := by
  simpa [dedupF] using foldl_setAdd_of_nodup h (by simp)

/-- On a consistent store, a kinds-plus-limit query is the descending stable
sort of the kind-filtered resolved timeline, truncated to the limit. -/
theorem query_kinds_limit {f : InformationField} (h : Inv f) {ks : List String}
    (hks : ks.isEmpty = false) (m : Nat) :
    f.query { kinds := some ks, limit := some m } =
      (sortDesc ((f.resolveTL).filter (fun p => ks.contains p.kind))).take m := by
  have h1 : dedupF (f.timeline.map (fun e => e.2)) = f.timeline.map (fun e => e.2) :=
    dedupF_eq_self (timeline_ids_nodup h)
  simp only [InformationField.query, InformationField.queryCandidates,
    InformationField.ids1, InformationField.ids0, interTags,
    InformationField.timeIds, InformationField.timeFilteredTL]
  simp [hks, h1, InformationField.resolveTL, List.filterMap_map, Function.comp]
  rfl

/-! ## Bounds for the health factors -/

theorem sigmoid_pos (x : ℝ) : 0 < sigmoid x := by
  have h : (0 : ℝ) < 1 + Real.exp (-x) := by positivity
  exact div_pos one_pos h

theorem sigmoid_lt_one (x : ℝ) : sigmoid x < 1 := by
  rw [sigmoid, div_lt_one (by positivity)]
  have := Real.exp_pos (-x)
  linarith

theorem exp_factor_mem {a x : ℝ} (ha : 0 ≤ a) (hx : 0 ≤ x) :
    Real.exp (-a * x) ∈ Set.Ioc (0 : ℝ) 1 := by
  constructor
  · exact Real.exp_pos _
  · calc Real.exp (-a * x) ≤ Real.exp 0 := Real.exp_le_exp.2 (by nlinarith)
      _ = 1 := Real.exp_zero

/-! ## Helper lemmas about `put` -/

theorem put_snd (f : InformationField) (p : InfoPacket) : (f.put p).2 = p.id := by
  rw [InformationField.put]
  split <;> rfl

theorem getPkt_putF_self {f : InformationField} {p : InfoPacket}
    (h : f.getPkt p.id = none) : (f.putF p).getPkt p.id = some p := by
  rw [putF_of_absent h]
  show findPkt (f.packets ++ [p]) p.id = some p
  rw [findPkt_append_right h]
  simp [findPkt]

theorem getPkt_putF_isSome (f : InformationField) (p : InfoPacket) :
    ((f.putF p).getPkt p.id).isSome := by
  cases hg : f.getPkt p.id with
  | some q => rw [putF_of_present (by simp [hg])]; simp [hg]
  | none => simp [getPkt_putF_self hg]

theorem putF_putF (f : InformationField) (p : InfoPacket) :
    (f.putF p).putF p = f.putF p :=
  putF_of_present (getPkt_putF_isSome f p)

/-! ## Claim theorems -/

/-- C1 counterexample: the claim "after `put(p)`, `get(p.id)` returns `p`"
fails on a store that already binds `p.id` to a different packet: with
`pktA2` sharing id `"a"` with the stored `pktA`, `put(pktA2)` is a no-op and
`get("a")` still returns `pktA ≠ pktA2`. -/
theorem c1_counterexample :
    (storeA.putF pktA2).getPkt "a" = some pktA ∧ pktA ≠ pktA2 := by
  constructor
  · rfl
  · decide

/-- C1 (amended): for every store in which `p.id` is unbound or already bound
to `p` itself, after `put(p)` the call `get(p.id)` returns `p`; and a second
`put(p)` is always a no-op — the store is structurally unchanged and `p.id`
is returned. -/
theorem c1_put_get_idempotent (f : InformationField) (p : InfoPacket)
    (h : f.getPkt p.id = none ∨ f.getPkt p.id = some p) :
    (f.putF p).getPkt p.id = some p ∧
      (f.putF p).putF p = f.putF p ∧ ((f.putF p).put p).2 = p.id := by
  refine ⟨?_, putF_putF f p, put_snd _ p⟩
  rcases h with h | h
  · exact getPkt_putF_self h
  · rw [putF_of_present (by simp [h])]
    exact h

/-- Witness for C1 at the empty store and the concrete packet `pktA`. -/
theorem c1_witness :
    (InformationField.empty.putF pktA).getPkt pktA.id = some pktA ∧
      (InformationField.empty.putF pktA).putF pktA = InformationField.empty.putF pktA ∧
      ((InformationField.empty.putF pktA).put pktA).2 = pktA.id :=
  c1_put_get_idempotent InformationField.empty pktA (Or.inl rfl)

/-- C10: `createPacket` with an empty overrides object defaults `kind` to
`"fact"` — a custom kind outside the spec's enumerated kind set — with
confidence 1.0, empty tags/parents/meta, null payload, no embedding, the
freshly generated id and the current time as `t`. -/
theorem c10_createPacket_defaults (genId : String) (now : ℚ) :
    createPacket genId now {} =
      { id := genId, t := now, kind := "fact", payload := .null, embedding := none
        tags := [], confidence := 1, parents := [], operator := none, meta := [] } ∧
      "fact" ∉ specEnumeratedKinds := by
  exact ⟨rfl, by decide⟩

/-- C5 counterexample: the composite health of the first `App` variant is
`0` — outside `(0, 1]` — at the nonnegative inputs `eps = 0`, `s_t = 0`,
`r_t = 2` (its last factor is `1 - r_t·0.5`, not `exp(-delta·r_t)`). -/
theorem c5_counterexample :
    healthVariant1 0 0 0 2 = 0 ∧ healthVariant1 0 0 0 2 ∉ Set.Ioc (0 : ℝ) 1 := by
  have h : healthVariant1 0 0 0 2 = 0 := by
    rw [healthVariant1]
    norm_num
  exact ⟨h, by rw [h]; simp⟩

/-- C5 (amended): the second `App` variant's health equals the spec's
`compositeHealth` formula at `alpha = 2, beta = 2, gamma = 5, delta = 1.5,
n0 = 1.5` and lies in `(0, 1]` for all nonnegative `eps`, `s_t`, `r_t`;
the first variant replaces the `exp(-delta·r_t)` factor by `(1 - 0.5·r_t)`
and lies in `(0, 1]` only under the additional bound `r_t < 2`. -/
theorem c5_health_amended :
    (∀ eps n_eff s_t r_t : ℝ, 0 ≤ eps → 0 ≤ s_t → 0 ≤ r_t →
      healthVariant2 eps n_eff s_t r_t = compositeHealth eps n_eff s_t r_t 2 2 5 1.5 1.5 ∧
        healthVariant2 eps n_eff s_t r_t ∈ Set.Ioc (0 : ℝ) 1) ∧
    (∀ eps n_eff s_t r_t : ℝ, 0 ≤ eps → 0 ≤ s_t → 0 ≤ r_t → r_t < 2 →
      healthVariant1 eps n_eff s_t r_t ∈ Set.Ioc (0 : ℝ) 1) := by
  constructor
  · intro eps n_eff s_t r_t heps hs hr
    refine ⟨rfl, ?_, ?_⟩
    · rw [healthVariant2]
      have := sigmoid_pos ((2 : ℝ) * (n_eff - 1.5))
      have := Real.exp_pos (-(2 : ℝ) * eps)
      have := Real.exp_pos (-(5 : ℝ) * s_t)
      have := Real.exp_pos (-(1.5 : ℝ) * r_t)
      positivity
    · rw [healthVariant2]
      obtain ⟨h1p, h1le⟩ := exp_factor_mem (by norm_num : (0:ℝ) ≤ 2) heps
      obtain ⟨h3p, h3le⟩ := exp_factor_mem (by norm_num : (0:ℝ) ≤ 5) hs
      obtain ⟨h4p, h4le⟩ := exp_factor_mem (by norm_num : (0:ℝ) ≤ 1.5) hr
      have h2p := sigmoid_pos ((2 : ℝ) * (n_eff - 1.5))
      have h2le := le_of_lt (sigmoid_lt_one ((2 : ℝ) * (n_eff - 1.5)))
      have hab := mul_le_one h1le h2p.le h2le
      have habc := mul_le_one hab h3p.le h3le
      exact mul_le_one habc h4p.le h4le
  · intro eps n_eff s_t r_t heps hs hr hr2
    rw [healthVariant1]
    obtain ⟨h1p, h1le⟩ := exp_factor_mem (by norm_num : (0:ℝ) ≤ 2) heps
    obtain ⟨h3p, h3le⟩ := exp_factor_mem (by norm_num : (0:ℝ) ≤ 5) hs
    have h2p := sigmoid_pos ((1 : ℝ) * (n_eff - 1.2))
    have h2le := le_of_lt (sigmoid_lt_one ((1 : ℝ) * (n_eff - 1.2)))
    have h4p : (0 : ℝ) < 1 - r_t * 0.5 := by linarith
    have h4le : (1 : ℝ) - r_t * 0.5 ≤ 1 := by linarith
    constructor
    · positivity
    · have hab := mul_le_one h1le h2p.le h2le
      have habc := mul_le_one hab h3p.le h3le
      exact mul_le_one habc h4p.le h4le

/-- Witness for C5 at `eps = 0, n_eff = 0, s_t = 0, r_t = 0`. -/
theorem c5_witness :
    (healthVariant2 0 0 0 0 = compositeHealth 0 0 0 0 2 2 5 1.5 1.5 ∧
      healthVariant2 0 0 0 0 ∈ Set.Ioc (0 : ℝ) 1) ∧
    healthVariant1 0 0 0 0 ∈ Set.Ioc (0 : ℝ) 1 :=
  ⟨c5_health_amended.1 0 0 0 0 le_rfl le_rfl le_rfl,
   c5_health_amended.2 0 0 0 0 le_rfl le_rfl le_rfl (by norm_num)⟩

/-- C3 counterexample: `getLatest(0)` on a one-packet store returns the whole
store (JS `slice(-0)` is `slice(0)`), so its length is `1`, not
`min 0 size = 0`. -/
theorem c3_counterexample :
    (storeA.getLatest 0).length = storeA.getSize ∧
      (storeA.getLatest 0).length ≠ min 0 storeA.getSize := by
  decide

/-- C3 (amended): for every reachable store and every requested count
`n ≥ 1`, `getLatest(n)` returns `min n size` packets ordered most-recent
first (non-increasing `t`); `getLatest(0)` instead returns the entire store. -/
theorem c3_getLatest_amended (f : InformationField) (hf : Reachable f) (n : Nat)
    (hn : 1 ≤ n) :
    (f.getLatest n).length = min n f.getSize ∧
      (f.getLatest n).Pairwise (fun a b => b.t ≤ a.t) := by
  have h := reachable_inv hf
  have hlen := timeline_length h
  rw [InformationField.getLatest, if_neg (by omega)]
  constructor
  · simp [InformationField.getSize, hlen]
    omega
  · have hsub : f.timeline.drop (f.timeline.length - n) <+ f.timeline :=
      List.drop_sublist _ _
    have hsorted : (f.timeline.drop (f.timeline.length - n)).Pairwise
        (fun a b => a.1 ≤ b.1) := (timeline_sorted h).sublist hsub
    have hrev : ((f.timeline.drop (f.timeline.length - n)).reverse).Pairwise
        (fun a b => b.1 ≤ a.1) := List.pairwise_reverse.2 hsorted
    rw [List.pairwise_map]
    refine hrev.imp_of_mem ?_
    intro a b ha hb hab
    have hamem : a ∈ f.timeline := hsub.mem (List.mem_reverse.1 ha)
    have hbmem : b ∈ f.timeline := hsub.mem (List.mem_reverse.1 hb)
    obtain ⟨pa, _, hga, hta⟩ := timeline_resolve h a hamem
    obtain ⟨pb, _, hgb, htb⟩ := timeline_resolve h b hbmem
    simp [hga, hgb, hta, htb, hab]

/-- Witness for C3 on the one-packet store `storeA` with `n = 1`. -/
theorem c3_witness :
    (storeA.getLatest 1).length = min 1 storeA.getSize ∧
      (storeA.getLatest 1).Pairwise (fun a b => b.t ≤ a.t) :=
  c3_getLatest_amended storeA (Reachable.put _ _ Reachable.empty) 1 le_rfl

/-! ## The tag index as the inverse of the packets' tag sets -/

theorem mem_setAdd {s : List String} {x y : String} :
    y ∈ setAdd s x ↔ y ∈ s ∨ y = x := by
  by_cases h : s.contains x
  · have hx : x ∈ s := by simpa using h
    simp only [setAdd, h, if_true]
    constructor
    · exact Or.inl
    · rintro (hy | rfl)
      · exact hy
      · exact hx
  · have hx : x ∉ s := by simpa using h
    simp [setAdd, hx]

theorem tagMem_addTagId {idx : List (String × List String)} {tg i tag id : String} :
    tagMem (addTagId idx tg i) tag id ↔ tagMem idx tag id ∨ (tag = tg ∧ id = i) := by
  induction idx with
  | nil =>
    by_cases h : tg = tag
    · subst h
      simp [tagMem, addTagId, tagLookup, mem_setAdd, setAdd]
    · have h1 : tagMem (addTagId [] tg i) tag id ↔ False := by
        rw [tagMem, show addTagId [] tg i = [(tg, setAdd [] i)] from rfl,
          tagLookup, List.find?_cons_of_neg _ (by simpa using h)]
        simp
      have h2 : tagMem ([] : List (String × List String)) tag id ↔ False := by
        simp [tagMem, tagLookup]
      rw [h1, h2]
      simp only [false_or, false_iff, not_and]
      intro hc
      exact absurd hc.symm h
  | cons e rest ih =>
    by_cases he : e.1 = tg
    · rw [addTagId, if_pos he]
      by_cases ht : e.1 = tag
      · rw [tagMem, tagLookup, List.find?_cons_of_pos _ (by simpa using ht),
          tagMem, tagLookup, List.find?_cons_of_pos _ (by simpa using ht)]
        have : tag = tg := by rw [← ht, he]
        simp [mem_setAdd, this]
      · rw [tagMem, tagLookup, List.find?_cons_of_neg _ (by simpa using ht),
          tagMem, tagLookup, List.find?_cons_of_neg _ (by simpa using ht)]
        have : ¬ tag = tg := by rw [← he]; intro hc; exact ht hc.symm
        simp [this, tagMem, tagLookup]
    · rw [addTagId, if_neg he]
      by_cases ht : e.1 = tag
      · rw [tagMem, tagLookup, List.find?_cons_of_pos _ (by simpa using ht),
          tagMem, tagLookup, List.find?_cons_of_pos _ (by simpa using ht)]
        have : ¬ tag = tg := by intro hc; exact he (by rw [ht, hc])
        simp [this]
      · rw [tagMem, tagLookup, List.find?_cons_of_neg _ (by simpa using ht),
          tagMem, tagLookup, List.find?_cons_of_neg _ (by simpa using ht)]
        exact ih

theorem tagMem_addPktTags {p : InfoPacket} {idx : List (String × List String)}
    {tag id : String} :
    tagMem (addPktTags p idx) tag id ↔
      tagMem idx tag id ∨ (tag ∈ p.tags ∧ id = p.id) := by
  rw [addPktTags]
  have main : ∀ (ts : List String) (ix : List (String × List String)),
      tagMem (ts.foldl (fun ix tg => addTagId ix tg p.id) ix) tag id ↔
        tagMem ix tag id ∨ (tag ∈ ts ∧ id = p.id) := by
    intro ts
    induction ts with
    | nil => simp
    | cons t ts ih =>
      intro ix
      rw [List.foldl_cons, ih (addTagId ix t p.id)]
      rw [show tagMem (addTagId ix t p.id) tag id ↔ _ from tagMem_addTagId]
      constructor
      · rintro ((h | ⟨rfl, rfl⟩) | ⟨h1, h2⟩)
        · exact Or.inl h
        · exact Or.inr ⟨by simp, rfl⟩
        · exact Or.inr ⟨by simp [h1], h2⟩
      · rintro (h | ⟨h1, h2⟩)
        · exact Or.inl (Or.inl h)
        · rcases List.mem_cons.1 h1 with rfl | h1
          · exact Or.inl (Or.inr ⟨rfl, h2⟩)
          · exact Or.inr ⟨h1, h2⟩
  exact main p.tags idx

theorem tagMem_specTagIndex {ps : List InfoPacket} {tag id : String} :
    tagMem (specTagIndex ps) tag id ↔ ∃ p ∈ ps, p.id = id ∧ tag ∈ p.tags := by
  induction ps using List.reverseRecOn with
  | nil => simp [specTagIndex, tagMem, tagLookup]
  | append_singleton ps p ih =>
    rw [specTagIndex_append, tagMem_addPktTags, ih]
    constructor
    · rintro (⟨q, hq, hqid, hqt⟩ | ⟨ht, rfl⟩)
      · exact ⟨q, by simp [hq], hqid, hqt⟩
      · exact ⟨p, by simp, rfl, ht⟩
    · rintro ⟨q, hq, hqid, hqt⟩
      rcases List.mem_append.1 hq with hq | hq
      · exact Or.inl ⟨q, hq, hqid, hqt⟩
      · rcases List.mem_singleton.1 hq with rfl
        exact Or.inr ⟨hqt, hqid.symm⟩

/-- C2: on every store built by `put`s from the empty store, the tag index
is exactly the inverse of the stored packets' tag sets, and the timeline is
exactly the reconstruction from the packet map alone — the `(t, id)` pairs
sorted ascending by `t` with ties in insertion order (stated as: equality
with the rebuild, ascending sortedness, and being a permutation of the
packet map's pairs; the tag index also equals its rebuild). -/
theorem c2_index_consistency (f : InformationField) (hf : Reachable f) :
    (∀ tag id, tagMem f.tagIndex tag id ↔
      ∃ p, f.getPkt id = some p ∧ tag ∈ p.tags) ∧
    f.timeline = specTimeline f.packets ∧
    f.timeline.Pairwise (fun a b => a.1 ≤ b.1) ∧
    f.timeline ~ f.packets.map (fun p => (p.t, p.id)) ∧
    f.tagIndex = specTagIndex f.packets := by
  have h := reachable_inv hf
  refine ⟨?_, h.tl, timeline_sorted h, timeline_perm h, h.tags⟩
  intro tag id
  rw [h.tags, tagMem_specTagIndex]
  constructor
  · rintro ⟨p, hp, hpid, hpt⟩
    subst hpid
    exact ⟨p, findPkt_of_mem_nodup hp h.nodup, hpt⟩
  · rintro ⟨p, hp, hpt⟩
    obtain ⟨hmem, hid⟩ := findPkt_mem hp
    exact ⟨p, hmem, hid, hpt⟩

/-- Witness for C2 on the one-packet store `storeA`. -/
theorem c2_witness :
    (∀ tag id, tagMem storeA.tagIndex tag id ↔
      ∃ p, storeA.getPkt id = some p ∧ tag ∈ p.tags) ∧
    storeA.timeline = specTimeline storeA.packets ∧
    storeA.timeline.Pairwise (fun a b => a.1 ≤ b.1) ∧
    storeA.timeline ~ storeA.packets.map (fun p => (p.t, p.id)) ∧
    storeA.tagIndex = specTagIndex storeA.packets :=
  c2_index_consistency storeA (Reachable.put _ _ Reachable.empty)

/-! ## Soundness of `query`: every returned packet satisfies the filter -/

theorem mem_foldl_setAdd {l acc : List String} {y : String} :
    y ∈ l.foldl setAdd acc ↔ y ∈ acc ∨ y ∈ l := by
  induction l generalizing acc with
  | nil => simp
  | cons x xs ih =>
    rw [List.foldl_cons, ih]
    rw [show (y ∈ setAdd acc x) = (y ∈ acc ∨ y = x) from propext mem_setAdd]
    constructor
    · rintro ((hy | rfl) | hy)
      · exact Or.inl hy
      · exact Or.inr (by simp)
      · exact Or.inr (by simp [hy])
    · rintro (hy | hy)
      · exact Or.inl (Or.inl hy)
      · rcases List.mem_cons.1 hy with rfl | hy
        · exact Or.inl (Or.inr rfl)
        · exact Or.inr hy

theorem mem_dedupF {l : List String} {y : String} (h : y ∈ dedupF l) : y ∈ l := by
  rcases mem_foldl_setAdd.1 h with h | h
  · simp at h
  · exact h

theorem mem_unionTags {f : InformationField} {ts : List String} {id : String}
    (h : id ∈ unionTags f ts) :
    ∃ tag ∈ ts, id ∈ (tagLookup f.tagIndex tag).getD [] := by
  rw [unionTags] at h
  have main : ∀ (ts' : List String) (acc : List String),
      id ∈ ts'.foldl
        (fun acc tag =>
          match tagLookup f.tagIndex tag with
          | none => acc
          | some tagIds => tagIds.foldl setAdd acc) acc →
      id ∈ acc ∨ ∃ tag ∈ ts', id ∈ (tagLookup f.tagIndex tag).getD [] := by
    intro ts'
    induction ts' with
    | nil => intro acc h; exact Or.inl h
    | cons t ts' ih =>
      intro acc h
      rw [List.foldl_cons] at h
      rcases ih _ h with hacc | ⟨tag, htag, hmem⟩
      · cases hl : tagLookup f.tagIndex t with
        | none => rw [hl] at hacc; exact Or.inl hacc
        | some tagIds =>
          rw [hl] at hacc
          rcases mem_foldl_setAdd.1 hacc with hacc | hIds
          · exact Or.inl hacc
          · exact Or.inr ⟨t, by simp, by simp [hl, hIds]⟩
      · exact Or.inr ⟨tag, by simp [htag], hmem⟩
  rcases main ts [] h with h | h
  · simp at h
  · exact h

theorem interTags_some {f : InformationField} :
    ∀ {ts : List String} {ids0 : Option (List String)} {l : List String} {id : String},
      interTags f ts ids0 = some l → id ∈ l →
      (∀ tag ∈ ts, id ∈ (tagLookup f.tagIndex tag).getD []) ∧
        (∀ s0, ids0 = some s0 → id ∈ s0) := by
  intro ts
  induction ts with
  | nil =>
    intro ids0 l id h hmem
    refine ⟨by simp, ?_⟩
    intro s0 hs0
    rw [interTags] at h
    simp only [List.foldl_nil] at h
    rw [hs0] at h
    cases h
    exact hmem
  | cons t ts ih =>
    intro ids0 l id h hmem
    rw [interTags, List.foldl_cons] at h
    cases ids0 with
    | none =>
      have h' : interTags f ts (some ((tagLookup f.tagIndex t).getD [])) = some l := h
      obtain ⟨hall, hinit⟩ := ih h' hmem
      have hin : id ∈ (tagLookup f.tagIndex t).getD [] := hinit _ rfl
      refine ⟨?_, ?_⟩
      · intro tag htag
        rcases List.mem_cons.1 htag with rfl | htag
        · exact hin
        · exact hall tag htag
      · intro s0 hs0; cases hs0
    | some cur =>
      have h' : interTags f ts
          (some (cur.filter (fun x => ((tagLookup f.tagIndex t).getD []).contains x)))
          = some l := h
      obtain ⟨hall, hinit⟩ := ih h' hmem
      have hin : id ∈ cur.filter
          (fun x => ((tagLookup f.tagIndex t).getD []).contains x) := hinit _ rfl
      have hcur : id ∈ cur := List.mem_of_mem_filter hin
      have ht : id ∈ (tagLookup f.tagIndex t).getD [] := by
        have := List.of_mem_filter hin
        simpa using this
      refine ⟨?_, ?_⟩
      · intro tag htag
        rcases List.mem_cons.1 htag with rfl | htag
        · exact ht
        · exact hall tag htag
      · intro s0 hs0
        cases hs0
        exact hcur

/-- From id-membership in a tag's index set to tag-membership in the packet
bound to that id. -/
theorem tag_of_lookup_mem {f : InformationField} (h : Inv f) {tag id : String}
    {p : InfoPacket} (hid : f.getPkt id = some p)
    (hmem : id ∈ (tagLookup f.tagIndex tag).getD []) : tag ∈ p.tags := by
  have htm : tagMem f.tagIndex tag id := hmem
  rw [h.tags, tagMem_specTagIndex] at htm
  obtain ⟨q, hq, hqid, hqt⟩ := htm
  obtain ⟨hpmem, hpid⟩ := findPkt_mem hid
  have : findPkt f.packets q.id = some q := findPkt_of_mem_nodup hq h.nodup
  rw [hqid] at this
  rw [show f.getPkt id = findPkt f.packets id from rfl] at hid
  rw [this] at hid
  cases hid
  exact hqt

theorem ids0_some_sound {f : InformationField} (h : Inv f) {q : FieldQuery}
    {id : String} {p : InfoPacket} (hid : f.getPkt id = some p) {s0 : List String}
    (h0 : f.ids0 q = some s0) (hmem : id ∈ s0) : satisfiesAnyB p q = true := by
  rw [InformationField.ids0] at h0
  cases hqa : q.tags_any with
  | none => rw [hqa] at h0; simp at h0
  | some l =>
    cases l with
    | nil => rw [hqa] at h0; simp at h0
    | cons t ts =>
      rw [hqa] at h0
      simp only [Option.getD_some, List.isEmpty_cons, Bool.false_eq_true, if_false,
        Option.some_inj] at h0
      subst h0
      obtain ⟨tag, htag, hlk⟩ := mem_unionTags hmem
      have := tag_of_lookup_mem h hid hlk
      simp only [satisfiesAnyB, hqa, List.any_eq_true]
      exact ⟨tag, htag, by simpa using this⟩

theorem ids0_none_sound {f : InformationField} {q : FieldQuery} {p : InfoPacket}
    (h0 : f.ids0 q = none) : satisfiesAnyB p q = true := by
  cases hqa : q.tags_any with
  | none => simp [satisfiesAnyB, hqa]
  | some l =>
    cases l with
    | nil => simp [satisfiesAnyB, hqa]
    | cons t ts =>
      exfalso
      rw [InformationField.ids0, hqa] at h0
      simp at h0

theorem interTags_isSome_of_some {f : InformationField} :
    ∀ (ts : List String) (cur : List String), (interTags f ts (some cur)).isSome := by
  intro ts
  induction ts with
  | nil => intro cur; simp [interTags]
  | cons t ts ih =>
    intro cur
    rw [interTags, List.foldl_cons]
    exact ih _

theorem interTags_none {f : InformationField} {ts : List String}
    {ids0 : Option (List String)} (h : interTags f ts ids0 = none) :
    ts = [] ∧ ids0 = none := by
  cases ts with
  | nil =>
    rw [interTags, List.foldl_nil] at h
    exact ⟨rfl, h⟩
  | cons t ts =>
    exfalso
    rw [interTags, List.foldl_cons] at h
    cases ids0 with
    | none =>
      have := interTags_isSome_of_some (f := f) ts ((tagLookup f.tagIndex t).getD [])
      rw [show (interTags f ts (some ((tagLookup f.tagIndex t).getD []))) = none from h] at this
      simp at this
    | some cur =>
      have := interTags_isSome_of_some (f := f) ts
        (cur.filter (fun x => ((tagLookup f.tagIndex t).getD []).contains x))
      rw [show (interTags f ts (some (cur.filter
        (fun x => ((tagLookup f.tagIndex t).getD []).contains x)))) = none from h] at this
      simp at this

theorem ids1_some_sound {f : InformationField} (h : Inv f) {q : FieldQuery}
    {id : String} {p : InfoPacket} (hid : f.getPkt id = some p) {cur : List String}
    (h1 : f.ids1 q = some cur) (hmem : id ∈ cur) :
    satisfiesAnyB p q = true ∧ satisfiesAllB p q = true := by
  rw [InformationField.ids1] at h1
  obtain ⟨hall, hinit⟩ := interTags_some h1 hmem
  constructor
  · cases h0 : f.ids0 q with
    | none => exact ids0_none_sound (f := f) h0
    | some s0 => exact ids0_some_sound h hid h0 (hinit s0 h0)
  · rw [satisfiesAllB, List.all_eq_true]
    intro tag htag
    simpa using tag_of_lookup_mem h hid (hall tag htag)

theorem ids1_none_sound {f : InformationField} {q : FieldQuery} {p : InfoPacket}
    (h1 : f.ids1 q = none) :
    satisfiesAnyB p q = true ∧ satisfiesAllB p q = true := by
  rw [InformationField.ids1] at h1
  obtain ⟨hts, h0⟩ := interTags_none h1
  constructor
  · exact ids0_none_sound (f := f) h0
  · simp [satisfiesAllB, hts]

theorem timeIds_sound {f : InformationField} (h : Inv f) {q : FieldQuery}
    {id : String} {p : InfoPacket} (hid : f.getPkt id = some p)
    (hmem : id ∈ f.timeIds q) : satisfiesTimeB p q = true := by
  have hmem' : id ∈ (f.timeFilteredTL q).map (fun i => i.2) := mem_dedupF hmem
  rcases List.mem_map.1 hmem' with ⟨e, he, rfl⟩
  have heTL : e ∈ f.timeline := List.mem_of_mem_filter he
  have hcond := List.of_mem_filter he
  obtain ⟨p', _, hg', ht'⟩ := timeline_resolve h e heTL
  rw [hid] at hg'
  cases hg'
  rw [Bool.and_eq_true] at hcond
  rw [satisfiesTimeB, Bool.and_eq_true]
  constructor
  · cases hs : q.since_t with
    | none => rfl
    | some s =>
      have := hcond.1
      rw [hs] at this
      simp only [decide_eq_true_eq] at this ⊢
      rw [ht']
      exact this
  · cases hu : q.until_t with
    | none => rfl
    | some u =>
      have := hcond.2
      rw [hu] at this
      simp only [decide_eq_true_eq] at this ⊢
      rw [ht']
      exact this

theorem queryCandidates_sound {f : InformationField} (h : Inv f) {q : FieldQuery}
    {id : String} {p : InfoPacket} (hid : f.getPkt id = some p)
    (hmem : id ∈ f.queryCandidates q) :
    satisfiesAnyB p q = true ∧ satisfiesAllB p q = true ∧ satisfiesTimeB p q = true := by
  rw [InformationField.queryCandidates] at hmem
  by_cases hcond : (q.since_t.isSome || q.until_t.isSome || (f.ids1 q).isNone) = true
  · rw [if_pos hcond] at hmem
    cases h1 : f.ids1 q with
    | none =>
      rw [h1] at hmem
      obtain ⟨ha, hb⟩ := ids1_none_sound (f := f) (q := q) (p := p) h1
      exact ⟨ha, hb, timeIds_sound h hid hmem⟩
    | some cur =>
      rw [h1] at hmem
      have hcur : id ∈ cur := List.mem_of_mem_filter hmem
      have htid : id ∈ f.timeIds q := by
        have := List.of_mem_filter hmem
        simpa using this
      obtain ⟨ha, hb⟩ := ids1_some_sound h hid h1 hcur
      exact ⟨ha, hb, timeIds_sound h hid htid⟩
  · rw [if_neg hcond] at hmem
    simp only [Bool.or_eq_true, not_or] at hcond
    obtain ⟨⟨hs1, hu1⟩, hn1⟩ := hcond
    cases h1 : f.ids1 q with
    | none => rw [h1] at hn1; simp at hn1
    | some cur =>
      rw [h1] at hmem
      simp only [Option.getD_some] at hmem
      obtain ⟨ha, hb⟩ := ids1_some_sound h hid h1 hmem
      refine ⟨ha, hb, ?_⟩
      have hs : q.since_t = none := by
        cases hs : q.since_t with
        | none => rfl
        | some s => rw [hs] at hs1; simp at hs1
      have hu : q.until_t = none := by
        cases hu : q.until_t with
        | none => rfl
        | some u => rw [hu] at hu1; simp at hu1
      simp [satisfiesTimeB, hs, hu]

/-- Every packet returned by `query` is a stored packet satisfying every
constraint the filter imposes. -/
theorem query_sound {f : InformationField} (h : Inv f) {q : FieldQuery}
    {p : InfoPacket} (hp : p ∈ f.query q) :
    p ∈ f.packets ∧ satisfiesB p q = true := by
  have hp2 : p ∈ sortDesc (if (q.kinds.getD []).isEmpty
      then (f.queryCandidates q).filterMap (fun id => f.getPkt id)
      else ((f.queryCandidates q).filterMap (fun id => f.getPkt id)).filter
        (fun p => (q.kinds.getD []).contains p.kind)) := by
    rw [InformationField.query] at hp
    cases hl : q.limit with
    | none => rw [hl] at hp; exact hp
    | some m =>
      rw [hl] at hp
      exact List.mem_of_mem_take hp
  have hp3 := (sortDesc_perm _).mem_iff.1 hp2
  have hkind : satisfiesKindB p q = true ∧
      p ∈ (f.queryCandidates q).filterMap (fun id => f.getPkt id) := by
    by_cases hke : (q.kinds.getD []).isEmpty = true
    · rw [if_pos hke] at hp3
      refine ⟨?_, hp3⟩
      cases hqk : q.kinds with
      | none => simp [satisfiesKindB, hqk]
      | some l =>
        cases l with
        | nil => simp [satisfiesKindB, hqk]
        | cons k ks => rw [hqk] at hke; simp at hke
    · rw [if_neg hke] at hp3
      have hpmem : p ∈ (f.queryCandidates q).filterMap (fun id => f.getPkt id) :=
        List.mem_of_mem_filter hp3
      have hc := List.of_mem_filter hp3
      refine ⟨?_, hpmem⟩
      cases hqk : q.kinds with
      | none => rw [hqk] at hke; simp at hke
      | some l =>
        cases l with
        | nil => rw [hqk] at hke; simp at hke
        | cons k ks =>
          rw [satisfiesKindB, hqk]
          rw [hqk] at hc
          simpa using hc
  obtain ⟨hkindB, hp4⟩ := hkind
  rcases List.mem_filterMap.1 hp4 with ⟨id, hidmem, hid⟩
  obtain ⟨hpmem, _⟩ := findPkt_mem hid
  obtain ⟨ha, hb, ht⟩ := queryCandidates_sound h hid hidmem
  exact ⟨hpmem, by simp [satisfiesB, ha, hb, hkindB, ht]⟩

/-- C9: store and query operations are total and never fail: `put` on an
already-present id is a structural no-op that returns the id, `get` on an
unknown id returns no packet, and `query` with a filter no stored packet
satisfies returns the empty sequence. -/
theorem c9_totality :
    (∀ f : InformationField, ∀ p : InfoPacket,
      (f.getPkt p.id).isSome → f.put p = (f, p.id)) ∧
    (∀ f : InformationField, ∀ id : String,
      (∀ p ∈ f.packets, p.id ≠ id) → f.getPkt id = none) ∧
    (∀ f : InformationField, ∀ q : FieldQuery, Reachable f →
      (∀ p ∈ f.packets, satisfiesB p q = false) → f.query q = []) := by
  refine ⟨?_, ?_, ?_⟩
  · intro f p hp
    rw [InformationField.put, if_pos hp]
  · intro f id h
    exact findPkt_eq_none.2 h
  · intro f q hf hnone
    by_contra hne
    obtain ⟨p, hp⟩ := List.exists_mem_of_ne_nil _ hne
    obtain ⟨hmem, hsat⟩ := query_sound (reachable_inv hf) hp
    rw [hnone p hmem] at hsat
    cases hsat

/-- Witness for C9: a duplicate `put`, a `get` of an unknown id and a
`query` for an unknown tag on the concrete store `storeA`. -/
theorem c9_witness :
    storeA.put pktA = (storeA, pktA.id) ∧
    storeA.getPkt "zzz" = none ∧
    storeA.query { tags_any := some ["nope"] } = [] :=
  ⟨c9_totality.1 storeA pktA (by decide),
   c9_totality.2.1 storeA "zzz" (by decide),
   c9_totality.2.2 storeA { tags_any := some ["nope"] }
     (Reachable.put _ _ Reachable.empty) (by decide)⟩

/-- C8: `CentroidOperator.applicable` holds exactly when at least
`minPoints = 4` of the most recent `window = 32` packets tagged any of
`observation`/`belief`/`trace` carry an embedding and are not tagged
`quarantine`; it is false with 3 such packets and true with exactly 4. -/
theorem c8_centroid_applicable :
    (∀ f : InformationField, CentroidOperator.applicable f = true ↔
      CentroidOperator.minPoints ≤
        ((f.query { tags_any := some ["observation", "belief", "trace"],
                    limit := some CentroidOperator.window }).countP
          (fun p => p.embedding.isSome && !(p.tags.contains "quarantine")))) ∧
    CentroidOperator.applicable store3 = false ∧
    CentroidOperator.applicable store4 = true := by
  refine ⟨?_, by decide, by decide⟩
  intro f
  rw [CentroidOperator.applicable]
  simp only [decide_eq_true_eq, ge_iff_le]
  rw [List.countP_eq_length_filter]

/-! ## Chunking lemmas for the hierarchy operator -/

theorem query_sorted (f : InformationField) (q : FieldQuery) :
    (f.query q).Pairwise (fun a b => b.t ≤ a.t) := by
  rw [InformationField.query]
  cases q.limit with
  | none => exact sortDesc_sorted _
  | some m => exact (sortDesc_sorted _).sublist (List.take_sublist _ _)

theorem map_const_replicate {α β : Type} (l : List α) (c : β) :
    l.map (fun _ => c) = List.replicate l.length c := by
  induction l with
  | nil => simp
  | cons x xs ih => simp [ih, List.replicate_succ]

theorem chunksOf_join {k : Nat} (hk : 1 ≤ k) (l : List InfoPacket) :
    (HierarchyOperator.chunksOf k l).join = l := by
  generalize hn : (l.length + k - 1) / k = n
  induction n generalizing l with
  | zero =>
    have hlen : l.length = 0 := by
      by_contra hne
      have h1 : k ≤ l.length + k - 1 := by omega
      have := Nat.div_le_div_right (c := k) h1
      rw [Nat.div_self (by omega)] at this
      omega
    have : l = [] := List.eq_nil_of_length_eq_zero hlen
    subst this
    simp [HierarchyOperator.chunksOf]
  | succ n ih =>
    have hlen1 : 1 ≤ l.length := by
      by_contra hne
      have hl0 : l.length = 0 := by omega
      rw [hl0] at hn
      rw [Nat.div_eq_of_lt (by omega)] at hn
      cases hn
    have hn' : ((l.drop k).length + k - 1) / k = n := by
      rw [List.length_drop]
      by_cases hcase : k ≤ l.length
      · have h1 : l.length - k + k - 1 = l.length - 1 := by omega
        have h2 : l.length + k - 1 = (l.length - 1) + k := by omega
        rw [h1]
        rw [h2, Nat.add_div_right _ (by omega)] at hn
        omega
      · have h1 : l.length - k = 0 := by omega
        rw [h1]
        have h2 : (0 + k - 1) / k = 0 := Nat.div_eq_of_lt (by omega)
        rw [h2]
        have h3 : l.length + k - 1 < 2 * k := by omega
        have h4 : (l.length + k - 1) / k < 2 := by
          rw [Nat.div_lt_iff_lt_mul (by omega)]
          omega
        omega
    rw [HierarchyOperator.chunksOf, hn, List.range_succ_eq_map, List.map_cons]
    have hjoin : ∀ (a : List InfoPacket) (rest : List (List InfoPacket)),
        (a :: rest).join = a ++ rest.join := fun a rest => rfl
    rw [hjoin, List.map_map]
    have hshift : ((List.range n).map ((fun j => (l.drop (j * k)).take k) ∘ Nat.succ))
        = HierarchyOperator.chunksOf k (l.drop k) := by
      rw [HierarchyOperator.chunksOf, hn']
      refine List.map_congr_left ?_
      intro j hj
      simp only [Function.comp]
      rw [List.drop_drop, Nat.succ_mul]
      congr 2
      omega
    rw [hshift, ih (l.drop k) hn']
    simp

theorem chunksOf_lengths (k : Nat) (l : List InfoPacket) :
    (HierarchyOperator.chunksOf k l).map List.length =
      (List.range ((l.length + k - 1) / k)).map (fun j => min k (l.length - j * k)) := by
  rw [HierarchyOperator.chunksOf, List.map_map]
  refine List.map_congr_left ?_
  intro j hj
  simp [List.length_take, List.length_drop]

/-- C4 counterexample: on a store with 11 eligible embedded summaries the
claim's chunk size `ceil(11/10) = 2` would give 6 chunks, but the code's
`stepSize = max(1, floor(11/10)) = 1` produces 11 macro-summaries, each with
exactly 1 parent — and `1 ≠ (11 + 10 - 1) / 10 = 2`. -/
theorem c4_counterexample :
    (HierarchyOperator.run store11 ⟨0⟩ (fun i => "m" ++ toString i) 0).produced.length = 11 ∧
    ((HierarchyOperator.run store11 ⟨0⟩ (fun i => "m" ++ toString i) 0).produced.map
      (fun p => p.parents.length)) = List.replicate 11 1 ∧
    (1 : Nat) ≠ (11 + 10 - 1) / 10 := by
  decide

/-- C4 (amended): `HierarchyOperator.run` orders the eligible embedded
summaries by recency, partitions them into contiguous chunks of size
`stepSize = max(1, floor(count/10))` (the last chunk possibly shorter) and
emits exactly one `summary` packet per chunk tagged
`macro`/`map`/`do_not_prune_micro`, with confidence fixed at `0.7` and
`parents` equal to the chunk's member ids. -/
theorem c4_hierarchy_amended (f : InformationField) (ctx : OpContext)
    (genId : Nat → String) (now : ℚ) :
    (HierarchyOperator.run f ctx genId now).produced.length =
      ((HierarchyOperator.eligSummaries f).length +
        max 1 ((HierarchyOperator.eligSummaries f).length / 10) - 1) /
        max 1 ((HierarchyOperator.eligSummaries f).length / 10) ∧
    (HierarchyOperator.chunksOf (max 1 ((HierarchyOperator.eligSummaries f).length / 10))
        (HierarchyOperator.eligSummaries f)).join = HierarchyOperator.eligSummaries f ∧
    (HierarchyOperator.run f ctx genId now).produced.map (fun p => p.kind) =
      List.replicate (HierarchyOperator.run f ctx genId now).produced.length "summary" ∧
    (HierarchyOperator.run f ctx genId now).produced.map (fun p => p.confidence) =
      List.replicate (HierarchyOperator.run f ctx genId now).produced.length (7 / 10) ∧
    (HierarchyOperator.run f ctx genId now).produced.map (fun p => p.tags) =
      List.replicate (HierarchyOperator.run f ctx genId now).produced.length
        ["macro", "map", "do_not_prune_micro", "summary"] ∧
    (HierarchyOperator.run f ctx genId now).produced.map (fun p => p.parents) =
      (HierarchyOperator.chunksOf (max 1 ((HierarchyOperator.eligSummaries f).length / 10))
        (HierarchyOperator.eligSummaries f)).map (fun c => c.map (fun p => p.id)) ∧
    (HierarchyOperator.eligSummaries f).Pairwise (fun a b => b.t ≤ a.t) := by
  refine ⟨?_, ?_, ?_, ?_, ?_, ?_, ?_⟩
  · simp [HierarchyOperator.run, HierarchyOperator.chunksOf, HierarchyOperator.targetCount]
  · exact chunksOf_join (le_max_left _ _) _
  · simp [HierarchyOperator.run, List.map_map, Function.comp_def, createPacket,
      map_const_replicate, List.enum_length, HierarchyOperator.targetCount]
  · simp [HierarchyOperator.run, List.map_map, Function.comp_def, createPacket,
      map_const_replicate, List.enum_length, HierarchyOperator.targetCount]
  · simp [HierarchyOperator.run, List.map_map, Function.comp_def, createPacket,
      map_const_replicate, List.enum_length, HierarchyOperator.targetCount]
  · rw [HierarchyOperator.run]
    simp only [List.map_map]
    rw [show ((fun p => p.parents) ∘ fun e => createPacket (genId e.1) now
      { kind := some "summary", payload := some (.macroSummary e.2.length)
        embedding := some (HierarchyOperator.chunkCentroid e.2)
        tags := some ["macro", "map", "do_not_prune_micro", "summary"]
        confidence := some (7 / 10), parents := some (e.2.map (fun p => p.id))
        operator := some "hierarchy.compress", meta := some [("step", ctx.step)] }) =
      ((fun c => c.map (fun p => p.id)) ∘ Prod.snd) from rfl]
    rw [← List.map_map, List.enum_map_snd]
    rfl
  · exact (query_sorted _ _).filter _

/-! ## The head of the descending sort is the first maximal-`t` element -/

theorem head?_take1 {α : Type} (l : List α) : (l.take 1).head? = l.head? := by
  cases l <;> rfl

theorem head?_ordInsDesc (x : InfoPacket) (s : List InfoPacket) :
    (ordInsDesc x s).head? =
      some (match s.head? with
            | none => x
            | some y => if x.t ≥ y.t then x else y) := by
  cases s with
  | nil => rfl
  | cons y ys =>
    by_cases h : x.t ≥ y.t
    · rw [show ordInsDesc x (y :: ys) = x :: y :: ys from by rw [ordInsDesc, if_pos h]]
      simp [h]
    · rw [show ordInsDesc x (y :: ys) = y :: ordInsDesc x ys from by rw [ordInsDesc, if_neg h]]
      simp [h]

theorem firstMaxCons_cons (x : InfoPacket) (xs : List InfoPacket) :
    firstMaxCons (x :: xs) =
      some (match firstMaxCons xs with
            | none => x
            | some m => if x.t ≥ m.t then x else m) := by
  rw [firstMaxCons]
  cases firstMaxCons xs <;> rfl

theorem firstMaxCons_isSome_of_cons (x : InfoPacket) (xs : List InfoPacket) :
    (firstMaxCons (x :: xs)).isSome := by
  rw [firstMaxCons_cons]
  rfl

theorem head?_sortDesc (l : List InfoPacket) :
    (sortDesc l).head? = firstMaxCons l := by
  induction l with
  | nil => rfl
  | cons x xs ih =>
    rw [show sortDesc (x :: xs) = ordInsDesc x (sortDesc xs) from rfl,
      head?_ordInsDesc, firstMaxCons_cons, ih]

theorem firstMaxCons_ge {l : List InfoPacket} {m : InfoPacket}
    (hm : firstMaxCons l = some m) : ∀ y ∈ l, y.t ≤ m.t := by
  induction l generalizing m with
  | nil => exact Option.noConfusion hm
  | cons x xs ih =>
    rw [firstMaxCons_cons] at hm
    cases hfm : firstMaxCons xs with
    | none =>
      rw [hfm] at hm
      dsimp only at hm
      cases hm
      intro y hy
      rcases List.mem_cons.1 hy with rfl | hy
      · exact le_refl _
      · cases xs with
        | nil => simp at hy
        | cons a as =>
          exfalso
          have := firstMaxCons_isSome_of_cons a as
          rw [hfm] at this
          simp at this
    | some m' =>
      rw [hfm] at hm
      dsimp only at hm
      cases hm
      intro y hy
      rcases List.mem_cons.1 hy with rfl | hy
      · split
        · exact le_refl _
        · exact le_of_not_le (by assumption)
      · have hy' := ih hfm y hy
        split
        · exact le_trans hy' (by assumption)
        · exact hy'

theorem firstMaxCons_insertPkt (x : InfoPacket) (s : List InfoPacket) :
    firstMaxCons (insertPkt x s) =
      some (match firstMaxCons s with
            | none => x
            | some m => if x.t > m.t then x else m) := by
  induction s with
  | nil => rfl
  | cons y ys ih =>
    by_cases hc : y.t > x.t
    · rw [show insertPkt x (y :: ys) = x :: y :: ys by rw [insertPkt, if_pos hc]]
      cases hfm : firstMaxCons (y :: ys) with
      | none =>
        exfalso
        have := firstMaxCons_isSome_of_cons y ys
        rw [hfm] at this
        simp at this
      | some m =>
        have hym : y.t ≤ m.t := firstMaxCons_ge hfm y (by simp)
        rw [firstMaxCons_cons, hfm]
        dsimp only
        rw [if_neg (by simp only [ge_iff_le, not_le]; linarith : ¬ x.t ≥ m.t)]
        rw [if_neg (by simp only [gt_iff_lt, not_lt]; linarith : ¬ x.t > m.t)]
    · rw [show insertPkt x (y :: ys) = y :: insertPkt x ys by rw [insertPkt, if_neg hc]]
      have hyx : y.t ≤ x.t := le_of_not_lt hc
      conv_lhs => rw [firstMaxCons_cons, ih]
      conv_rhs => rw [firstMaxCons_cons]
      cases hfm : firstMaxCons ys with
      | none =>
        dsimp only
        by_cases h1 : y.t ≥ x.t
        · rw [if_pos h1, if_neg (by simp only [gt_iff_lt, not_lt]; linarith : ¬ x.t > y.t)]
        · have h2 : x.t > y.t := lt_of_not_le (by simpa using h1)
          rw [if_neg h1, if_pos h2]
      | some m =>
        dsimp only
        split_ifs
        all_goals try rfl
        all_goals exfalso
        all_goals linarith

/-! ## Filtering commutes with the stable ascending sort -/

theorem insertPkt_perm (x : InfoPacket) (l : List InfoPacket) :
    insertPkt x l ~ x :: l := by
  induction l with
  | nil => simp [insertPkt]
  | cons y ys ih =>
    by_cases h : y.t > x.t
    · rw [show insertPkt x (y :: ys) = x :: y :: ys by rw [insertPkt, if_pos h]]
    · rw [show insertPkt x (y :: ys) = y :: insertPkt x ys by rw [insertPkt, if_neg h]]
      exact (ih.cons y).trans (List.Perm.swap x y ys)

theorem insertPkt_sorted {l : List InfoPacket} (x : InfoPacket)
    (h : l.Pairwise (fun a b => a.t ≤ b.t)) :
    (insertPkt x l).Pairwise (fun a b => a.t ≤ b.t) := by
  induction l with
  | nil => simp [insertPkt]
  | cons y ys ih =>
    rcases List.pairwise_cons.1 h with ⟨hy, hys⟩
    by_cases hc : y.t > x.t
    · rw [show insertPkt x (y :: ys) = x :: y :: ys by rw [insertPkt, if_pos hc]]
      refine List.pairwise_cons.2 ⟨?_, h⟩
      intro b hb
      rcases List.mem_cons.1 hb with rfl | hb
      · exact le_of_lt hc
      · exact le_trans (le_of_lt hc) (hy b hb)
    · rw [show insertPkt x (y :: ys) = y :: insertPkt x ys by rw [insertPkt, if_neg hc]]
      refine List.pairwise_cons.2 ⟨?_, ih hys⟩
      intro b hb
      rcases List.mem_cons.1 ((insertPkt_perm x ys).mem_iff.1 hb) with rfl | hb'
      · exact le_of_not_lt hc
      · exact hy b hb'

theorem ascSortPkts_sorted (l : List InfoPacket) :
    (ascSortPkts l).Pairwise (fun a b => a.t ≤ b.t) := by
  induction l using List.reverseRecOn with
  | nil => simp [ascSortPkts]
  | append_singleton l p ih =>
    rw [ascSortPkts_append]
    exact insertPkt_sorted p ih

theorem insertPkt_front {x : InfoPacket} {m : List InfoPacket}
    (h : ∀ z ∈ m, z.t > x.t) : insertPkt x m = x :: m := by
  cases m with
  | nil => rfl
  | cons z zs => rw [insertPkt, if_pos (h z (by simp))]

theorem filter_insertPkt {P : InfoPacket → Bool} {x : InfoPacket} {s : List InfoPacket}
    (hs : s.Pairwise (fun a b => a.t ≤ b.t)) :
    (insertPkt x s).filter P =
      if P x then insertPkt x (s.filter P) else s.filter P := by
  induction s with
  | nil =>
    rw [show insertPkt x [] = [x] from rfl]
    by_cases hx : P x <;> simp [List.filter_cons, hx, insertPkt]
  | cons y ys ih =>
    rcases List.pairwise_cons.1 hs with ⟨hy, hys⟩
    by_cases hc : y.t > x.t
    · rw [show insertPkt x (y :: ys) = x :: y :: ys by rw [insertPkt, if_pos hc]]
      simp only [List.filter_cons]
      split_ifs with h1 h2 h2
      · rw [show insertPkt x (y :: ys.filter P) = x :: y :: ys.filter P from
          insertPkt_front (by
            intro z hz
            rcases List.mem_cons.1 hz with rfl | hz
            · exact hc
            · exact lt_of_lt_of_le hc (hy z (List.mem_of_mem_filter hz)))]
      · rw [show insertPkt x (ys.filter P) = x :: ys.filter P from
          insertPkt_front (by
            intro z hz
            exact lt_of_lt_of_le hc (hy z (List.mem_of_mem_filter hz)))]
      · rfl
      · rfl
    · rw [show insertPkt x (y :: ys) = y :: insertPkt x ys by rw [insertPkt, if_neg hc]]
      simp only [List.filter_cons]
      rw [ih hys]
      split_ifs with h1 h2 h2
      · rw [show insertPkt x (y :: ys.filter P) = y :: insertPkt x (ys.filter P)
          by rw [insertPkt, if_neg hc]]
      · rfl
      · rfl
      · rfl

theorem filter_ascSortPkts (P : InfoPacket → Bool) (l : List InfoPacket) :
    (ascSortPkts l).filter P = ascSortPkts (l.filter P) := by
  induction l using List.reverseRecOn with
  | nil => simp [ascSortPkts]
  | append_singleton l p ih =>
    rw [ascSortPkts_append, filter_insertPkt (ascSortPkts_sorted l), ih,
      List.filter_append]
    by_cases hp : P p = true
    · rw [if_pos hp]
      simp only [List.filter_cons, hp, if_true, List.filter_nil]
      rw [ascSortPkts_append]
    · rw [if_neg hp]
      rw [show List.filter P [p] = [] by simp [List.filter_cons, hp]]
      rw [List.append_nil]

theorem specMax_append (l : List InfoPacket) (p : InfoPacket) :
    specMax (l ++ [p]) =
      some (match specMax l with
            | none => p
            | some m => if p.t > m.t then p else m) := by
  rw [specMax, List.foldl_append, ← specMax]
  cases specMax l with
  | none => rfl
  | some v =>
    show (if p.t > v.t then some p else some v) = some (if p.t > v.t then p else v)
    by_cases h : p.t > v.t <;> simp [h]

theorem firstMaxCons_ascSort (l : List InfoPacket) :
    firstMaxCons (ascSortPkts l) = specMax l := by
  induction l using List.reverseRecOn with
  | nil => rfl
  | append_singleton l p ih =>
    rw [ascSortPkts_append, firstMaxCons_insertPkt, ih, specMax_append]

/-! ## The head of a kinds-query is the greatest-`t` packet of that kind -/

theorem query_summary_head {f : InformationField} (h : Inv f) :
    (f.query { kinds := some ["summary"], limit := some 1 }).head? = specRefSummary f := by
  rw [query_kinds_limit h (by rfl) 1, head?_take1, head?_sortDesc,
    resolveTL_eq_ascSort h]
  have hpred : (fun p : InfoPacket => (["summary"] : List String).contains p.kind)
      = (fun p : InfoPacket => decide (p.kind = "summary")) := by
    funext p
    by_cases hk : p.kind = "summary" <;> simp [hk]
  rw [hpred, filter_ascSortPkts, firstMaxCons_ascSort]
  rfl

theorem reachable_buildStore (l : List InfoPacket) : Reachable (buildStore l) := by
  rw [buildStore]
  have main : ∀ (l' : List InfoPacket) (f : InformationField), Reachable f →
      Reachable (l'.foldl (fun f p => f.putF p) f) := by
    intro l'
    induction l' with
    | nil => intro f hf; exact hf
    | cons p ps ih =>
      intro f hf
      exact ih _ (Reachable.put f p hf)
  exact main l _ Reachable.empty

/-- C6 counterexample: the reference summary is *not* the most
recently-inserted one.  In `storeC6` the summary `sumT0` (embedding `(1,0)`)
was inserted after `sumT1` (embedding `(0,0)`, larger `t`), yet
`calculateInnovationError` of an observation at `(3,4)` is `5` — the distance
to `sumT1` — while the distance to the most recently-inserted summary is
`√20 ≠ 5`. -/
theorem c6_counterexample :
    storeC6.calculateInnovationError obs34 = 5 ∧
    (storeC6.packets.filter (fun p => p.kind = "summary")).getLast? = some sumT0 ∧
    euclid ((3 : ℚ), (4 : ℚ)) ((1 : ℚ), (0 : ℚ)) ≠ 5 := by
  refine ⟨?_, by decide, ?_⟩
  · have hq : (storeC6.query { kinds := some ["summary"], limit := some 1 }).head?
        = some sumT1 := by decide
    rw [InformationField.calculateInnovationError, hq]
    show euclid ((3 : ℚ), (4 : ℚ)) ((0 : ℚ), (0 : ℚ)) = 5
    rw [euclid]
    norm_num
    rw [show (25 : ℝ) = 5 ^ 2 by norm_num, Real.sqrt_sq (by norm_num : (0:ℝ) ≤ 5)]
  · have h20 : euclid ((3 : ℚ), (4 : ℚ)) ((1 : ℚ), (0 : ℚ)) = Real.sqrt 20 := by
      rw [euclid]
      norm_num
    rw [h20]
    have hlt : Real.sqrt 20 < 5 := by
      have h : Real.sqrt 20 < Real.sqrt 25 :=
        Real.sqrt_lt_sqrt (by norm_num) (by norm_num)
      rw [show (25 : ℝ) = 5 ^ 2 by norm_num,
        Real.sqrt_sq (by norm_num : (0:ℝ) ≤ 5)] at h
      exact h
    exact ne_of_lt hlt

/-- C6 (amended): for every reachable store, `calculateInnovationError(obs)`
is the Euclidean distance between `obs.embedding` and the embedding of the
stored `summary` packet with the greatest `t` (earliest-inserted among
equal-`t` ties) — not the most recently-inserted one — and `0` whenever no
summary exists or either embedding is absent; with exactly one summary at
`(0,0)` and `obs` at `(3,4)` it returns exactly `5.0`. -/
theorem c6_innovation_amended (f : InformationField) (hf : Reachable f)
    (obs : InfoPacket) :
    f.calculateInnovationError obs =
      (match specRefSummary f with
       | none => 0
       | some s =>
         match s.embedding, obs.embedding with
         | some se, some oe => euclid oe se
         | _, _ => 0) ∧
    storeIE.calculateInnovationError obs34 = 5 := by
  constructor
  · rw [InformationField.calculateInnovationError,
      query_summary_head (reachable_inv hf)]
  · have hq : (storeIE.query { kinds := some ["summary"], limit := some 1 }).head?
        = some sumT1 := by decide
    rw [InformationField.calculateInnovationError, hq]
    show euclid ((3 : ℚ), (4 : ℚ)) ((0 : ℚ), (0 : ℚ)) = 5
    rw [euclid]
    norm_num
    rw [show (25 : ℝ) = 5 ^ 2 by norm_num, Real.sqrt_sq (by norm_num : (0:ℝ) ≤ 5)]

/-- Witness for C6 at the one-summary store `storeIE` and the observation
`obs34`. -/
theorem c6_witness :
    (storeIE.calculateInnovationError obs34 =
      (match specRefSummary storeIE with
       | none => 0
       | some s =>
         match s.embedding, obs34.embedding with
         | some se, some oe => euclid oe se
         | _, _ => 0)) ∧
    storeIE.calculateInnovationError obs34 = 5 :=
  c6_innovation_amended storeIE (reachable_buildStore [sumT1]) obs34

/-! ## The count map of `calculateDiversity` as a count function -/

theorem countsOf_append (A : List String) (a : String) :
    countsOf (A ++ [a]) = bumpCount (countsOf A) a := by
  simp [countsOf, List.foldl_append]

theorem bumpCount_keys {m : List (String × Nat)} {k : String} :
    ∀ k', k' ∈ (bumpCount m k).map Prod.fst ↔ k' ∈ m.map Prod.fst ∨ k' = k := by
  intro k'
  rw [bumpCount]
  by_cases hany : m.any (fun e => e.1 = k) = true
  · rw [if_pos hany]
    have hkmem : k ∈ m.map Prod.fst := by
      rcases List.any_eq_true.1 hany with ⟨e, he, hek⟩
      simp only [decide_eq_true_eq] at hek
      exact hek ▸ List.mem_map_of_mem Prod.fst he
    have hkeys : (m.map (fun e => if e.1 = k then (e.1, e.2 + 1) else e)).map Prod.fst
        = m.map Prod.fst := by
      rw [List.map_map]
      refine List.map_congr_left ?_
      intro e _
      by_cases he : e.1 = k <;> simp [he]
    rw [hkeys]
    constructor
    · exact Or.inl
    · rintro (h | rfl)
      · exact h
      · exact hkmem
  · rw [if_neg hany]
    simp

theorem bumpCount_keys_nodup {m : List (String × Nat)} {k : String}
    (h : (m.map Prod.fst).Nodup) : ((bumpCount m k).map Prod.fst).Nodup := by
  rw [bumpCount]
  by_cases hany : m.any (fun e => e.1 = k) = true
  · rw [if_pos hany]
    have hkeys : (m.map (fun e => if e.1 = k then (e.1, e.2 + 1) else e)).map Prod.fst
        = m.map Prod.fst := by
      rw [List.map_map]
      refine List.map_congr_left ?_
      intro e _
      by_cases he : e.1 = k <;> simp [he]
    rw [hkeys]
    exact h
  · rw [if_neg hany]
    have hknot : k ∉ m.map Prod.fst := by
      intro hk
      rcases List.mem_map.1 hk with ⟨e, he, hek⟩
      exact hany (List.any_eq_true.2 ⟨e, he, by simp [hek]⟩)
    simp only [List.map_append, List.map_cons, List.map_nil]
    exact List.Nodup.append h (by simp)
      (by simpa [List.disjoint_singleton] using hknot)

theorem bumpCount_vals {m : List (String × Nat)} {k : String} {A : List String}
    (hm : ∀ e ∈ m, e.2 = A.count e.1)
    (hkeys : ∀ k', k' ∈ m.map Prod.fst ↔ k' ∈ A) :
    ∀ e ∈ bumpCount m k, e.2 = (A ++ [k]).count e.1 := by
  intro e he
  rw [bumpCount] at he
  by_cases hany : m.any (fun e => e.1 = k) = true
  · rw [if_pos hany] at he
    rcases List.mem_map.1 he with ⟨e0, he0, hup⟩
    by_cases hek : e0.1 = k
    · rw [if_pos hek] at hup
      subst hup
      simp only
      rw [hm e0 he0, List.count_append, hek]
      simp
    · rw [if_neg hek] at hup
      subst hup
      rw [hm e0 he0, List.count_append]
      simp [List.count_singleton', hek]
  · rw [if_neg hany] at he
    rcases List.mem_append.1 he with he | he
    · have hek : ¬ e.1 = k := by
        intro hc
        exact hany (List.any_eq_true.2 ⟨e, he, by simp [hc]⟩)
      rw [hm e he, List.count_append]
      simp [List.count_singleton', hek]
    · rcases List.mem_singleton.1 he with rfl
      simp only
      have hknot : k ∉ A := by
        rw [← hkeys]
        intro hk
        rcases List.mem_map.1 hk with ⟨e0, he0, hek⟩
        exact hany (List.any_eq_true.2 ⟨e0, he0, by simp [hek]⟩)
      rw [List.count_append]
      simp [List.count_eq_zero.2 hknot]

theorem countsOf_spec (A : List String) :
    ((countsOf A).map Prod.fst).Nodup ∧
    (∀ k', k' ∈ (countsOf A).map Prod.fst ↔ k' ∈ A) ∧
    (∀ e ∈ countsOf A, e.2 = A.count e.1) := by
  induction A using List.reverseRecOn with
  | nil => refine ⟨by simp [countsOf], by simp [countsOf], by simp [countsOf]⟩
  | append_singleton A a ih =>
    obtain ⟨ihnd, ihkeys, ihvals⟩ := ih
    rw [countsOf_append]
    refine ⟨bumpCount_keys_nodup ihnd, ?_, bumpCount_vals ihvals ihkeys⟩
    intro k'
    rw [bumpCount_keys k', ihkeys k']
    simp

theorem foldl_sub_eq {α : Type} (g : α → ℝ) (l : List α) :
    ∀ a : ℝ, l.foldl (fun acc e => acc - g e) a = a - (l.map g).sum := by
  induction l with
  | nil => intro a; simp
  | cons x xs ih =>
    intro a
    rw [List.foldl_cons, ih (a - g x), List.map_cons, List.sum_cons]
    ring

theorem sum_map_neg' {α : Type} (l : List α) (g : α → ℝ) :
    (l.map (fun x => -(g x))).sum = -((l.map g).sum) := by
  induction l with
  | nil => simp
  | cons x xs ih =>
    simp only [List.map_cons, List.sum_cons, ih]
    ring

/-- The entropy sum over the built count map equals the sum over the distinct
assigned ids with their multiplicities in the assignment list. -/
theorem countsOf_sum_eq (A : List String) (g : Nat → ℝ) :
    ((countsOf A).map (fun e => g e.2)).sum = ((A.dedup).map (fun k => g (A.count k))).sum := by
  obtain ⟨hnd, hkeys, hvals⟩ := countsOf_spec A
  have h1 : (countsOf A).map (fun e => g e.2)
      = (countsOf A).map (fun e => g (A.count e.1)) := by
    refine List.map_congr_left ?_
    intro e he
    rw [hvals e he]
  rw [h1, show ((countsOf A).map (fun e => g (A.count e.1)))
      = ((countsOf A).map Prod.fst).map (fun k => g (A.count k)) by rw [List.map_map]; rfl]
  have hperm : (countsOf A).map Prod.fst ~ A.dedup := by
    refine List.perm_of_nodup_nodup_toFinset_eq hnd (List.nodup_dedup A) ?_
    ext k
    simp [List.mem_toFinset, hkeys k, List.mem_dedup]
  exact (hperm.map (fun k => g (A.count k))).sum_eq

/-! ## The minimum scan of `calculateDiversity` finds a nearest centroid -/

theorem nearGo_spec (e : ℚ × ℚ) :
    ∀ (l : List InfoPacket) (bid : String) (md : ℝ),
      (nearGo e l bid (some md) = bid ∧
        ∀ s' ∈ l, md ≤ euclid e (s'.embedding.getD (0, 0))) ∨
      (∃ s ∈ l, nearGo e l bid (some md) = s.id ∧
        euclid e (s.embedding.getD (0, 0)) ≤ md ∧
        ∀ s' ∈ l, euclid e (s.embedding.getD (0, 0)) ≤ euclid e (s'.embedding.getD (0, 0))) := by
  intro l
  induction l with
  | nil =>
    intro bid md
    left
    exact ⟨rfl, by simp⟩
  | cons s rest ih =>
    intro bid md
    by_cases hd : euclid e (s.embedding.getD (0, 0)) < md
    · have hstep : nearGo e (s :: rest) bid (some md)
          = nearGo e rest s.id (some (euclid e (s.embedding.getD (0, 0)))) := by
        rw [nearGo]
        simp only [if_pos hd]
      rcases ih s.id (euclid e (s.embedding.getD (0, 0))) with ⟨heq, hall⟩ |
        ⟨s', hs', heq, hle, hall⟩
      · right
        refine ⟨s, by simp, by rw [hstep]; exact heq, le_of_lt hd, ?_⟩
        intro s'' hs''
        rcases List.mem_cons.1 hs'' with rfl | hs''
        · exact le_refl _
        · exact hall s'' hs''
      · right
        refine ⟨s', by simp [hs'], by rw [hstep]; exact heq,
          le_trans hle (le_of_lt hd), ?_⟩
        intro s'' hs''
        rcases List.mem_cons.1 hs'' with rfl | hs''
        · exact hle
        · exact hall s'' hs''
    · have hstep : nearGo e (s :: rest) bid (some md) = nearGo e rest bid (some md) := by
        rw [nearGo]
        simp only [if_neg hd]
      rcases ih bid md with ⟨heq, hall⟩ | ⟨s', hs', heq, hle, hall⟩
      · left
        refine ⟨by rw [hstep]; exact heq, ?_⟩
        intro s'' hs''
        rcases List.mem_cons.1 hs'' with rfl | hs''
        · exact le_of_not_lt hd
        · exact hall s'' hs''
      · right
        refine ⟨s', by simp [hs'], by rw [hstep]; exact heq, hle, ?_⟩
        intro s'' hs''
        rcases List.mem_cons.1 hs'' with rfl | hs''
        · exact le_trans hle (le_of_not_lt hd)
        · exact hall s'' hs''

theorem nearestCentroid_spec (sums : List InfoPacket) (e : ℚ × ℚ) (hne : sums ≠ []) :
    ∃ s ∈ sums, nearestCentroid sums e = s.id ∧
      ∀ s' ∈ sums, euclid e (s.embedding.getD (0, 0)) ≤ euclid e (s'.embedding.getD (0, 0)) := by
  cases sums with
  | nil => exact absurd rfl hne
  | cons s rest =>
    have hstep : nearestCentroid (s :: rest) e
        = nearGo e rest s.id (some (euclid e (s.embedding.getD (0, 0)))) := rfl
    rcases nearGo_spec e rest s.id (euclid e (s.embedding.getD (0, 0))) with
      ⟨heq, hall⟩ | ⟨s', hs', heq, hle, hall⟩
    · refine ⟨s, by simp, by rw [hstep]; exact heq, ?_⟩
      intro s'' hs''
      rcases List.mem_cons.1 hs'' with rfl | hs''
      · exact le_refl _
      · exact hall s'' hs''
    · refine ⟨s', by simp [hs'], by rw [hstep]; exact heq, ?_⟩
      intro s'' hs''
      rcases List.mem_cons.1 hs'' with rfl | hs''
      · exact hle
      · exact hall s'' hs''

/-- C7: `calculateDiversity` takes the up-to-`window` most recent embedded
observations and up-to-10 most recent embedded summaries, assigns each
observation to a nearest centroid (Euclidean), and returns `exp` of the
Shannon entropy of the assignment-count distribution; it returns exactly
`1.0` whenever there are no qualifying observations or no centroids. -/
theorem c7_diversity :
    (∀ (f : InformationField) (w : Nat),
      f.diversityObs w = [] ∨ f.diversityCents = [] → f.calculateDiversity w = 1) ∧
    (∀ (f : InformationField) (w : Nat),
      f.diversityObs w ≠ [] → f.diversityCents ≠ [] →
      f.calculateDiversity w = Real.exp (assignEntropy (f.assignList w)) ∧
      (∀ o ∈ f.diversityObs w, ∃ s ∈ f.diversityCents,
        nearestCentroid f.diversityCents (o.embedding.getD (0, 0)) = s.id ∧
        ∀ s' ∈ f.diversityCents,
          euclid (o.embedding.getD (0, 0)) (s.embedding.getD (0, 0)) ≤
          euclid (o.embedding.getD (0, 0)) (s'.embedding.getD (0, 0)))) := by
  constructor
  · intro f w h
    rw [InformationField.calculateDiversity]
    have hcond : (f.diversityObs w).length = 0 ∨ (f.diversityCents).length = 0 := by
      rcases h with h | h
      · exact Or.inl (by simp [h])
      · exact Or.inr (by simp [h])
    rw [if_pos hcond]
  · intro f w hobs hcents
    constructor
    · have hcond : ¬ ((f.diversityObs w).length = 0 ∨ (f.diversityCents).length = 0) := by
        rw [not_or]
        constructor
        · simpa [List.length_eq_zero] using hobs
        · simpa [List.length_eq_zero] using hcents
      rw [InformationField.calculateDiversity, if_neg hcond]
      have hcounts : (f.diversityObs w).foldl
          (fun cnts obs =>
            bumpCount cnts (nearestCentroid f.diversityCents (obs.embedding.getD (0, 0)))) []
          = countsOf (f.assignList w) := by
        rw [countsOf, InformationField.assignList, List.foldl_map]
      rw [hcounts]
      dsimp only
      congr 1
      rw [foldl_sub_eq (fun e => ((e.2 : ℝ) / ((f.diversityObs w).length : ℝ)) *
        Real.log ((e.2 : ℝ) / ((f.diversityObs w).length : ℝ))) (countsOf (f.assignList w)) 0]
      rw [zero_sub]
      rw [assignEntropy]
      simp only [negPlogP]
      rw [sum_map_neg' (f.assignList w).dedup
        (fun k => (((f.assignList w).count k : ℝ) / ((f.assignList w).length : ℝ)) *
          Real.log (((f.assignList w).count k : ℝ) / ((f.assignList w).length : ℝ)))]
      rw [show ((f.assignList w).length : ℝ) = ((f.diversityObs w).length : ℝ) by
        rw [InformationField.assignList, List.length_map]]
      rw [countsOf_sum_eq (f.assignList w)
        (fun c => ((c : ℝ) / ((f.diversityObs w).length : ℝ)) *
          Real.log ((c : ℝ) / ((f.diversityObs w).length : ℝ)))]
    · intro o ho
      exact nearestCentroid_spec f.diversityCents (o.embedding.getD (0, 0)) hcents

/-- Witness for C7: the empty store (no centroids) gives exactly `1.0`, and a
store with one embedded observation and one embedded summary satisfies the
non-degenerate characterization. -/
theorem c7_witness :
    InformationField.empty.calculateDiversity 32 = 1 ∧
    (storeDiv.calculateDiversity 32 = Real.exp (assignEntropy (storeDiv.assignList 32)) ∧
      (∀ o ∈ storeDiv.diversityObs 32, ∃ s ∈ storeDiv.diversityCents,
        nearestCentroid storeDiv.diversityCents (o.embedding.getD (0, 0)) = s.id ∧
        ∀ s' ∈ storeDiv.diversityCents,
          euclid (o.embedding.getD (0, 0)) (s.embedding.getD (0, 0)) ≤
          euclid (o.embedding.getD (0, 0)) (s'.embedding.getD (0, 0)))) :=
  ⟨c7_diversity.1 InformationField.empty 32 (Or.inl rfl),
   c7_diversity.2 storeDiv 32 (by decide) (by decide)⟩

end CognitiveField
